import Mathlib

/-!
# website_monitoring: a verification development of `main.go`

The file embeds the three functions that make up the monitor
(`checkURL`, `runChecks`, `runPeriodicalChecks`) and proves properties of them.

* Go strings are byte sequences (`GoString`); `strings.HasPrefix` and
  `strings.Contains` follow the Go standard library's documented meaning.
* `checkURL` talks to the network; what the network answers is an input
  (`World`), and what `checkURL` does is the list of its effects in program
  order (`Event`).
* `runChecks` is concurrent; it is a transition system whose actions are the
  atomic steps of the main goroutine and of the spawned goroutines, with a
  logical clock for `time.Sleep`.
* The ticker of `runPeriodicalChecks` and the goroutine that reads it are a second
  transition system, which runs the rounds of the first one.
-/

namespace WebsiteMonitoring

/-! ## Strings -/

/-- One byte of a Go string. -/
abbrev Byte := Fin 256

/-- Go `string`: an immutable sequence of bytes. -/
abbrev GoString := List Byte

/-- Bytes of an ASCII literal. -/
def ascii (s : String) : GoString := s.data.map (fun c => Fin.ofNat c.toNat)

/-- Go `strings.HasPrefix(s, prefix)`:
`len(s) >= len(prefix) && s[:len(prefix)] == prefix`. -/
def hasPrefix (s pre : GoString) : Bool :=
  decide (pre.length ≤ s.length) && (s.take pre.length == pre)

/-- Go `strings.Contains(s, substr)`: some window `s[i:i+len(substr)]` equals `substr`. -/
def contains : GoString → GoString → Bool
  | [], substr => hasPrefix [] substr
  | c :: s, substr => hasPrefix (c :: s) substr || contains s substr

/-! ## Configuration -/

/-- Go `map[string]string`, as the list of its key/value pairs. -/
abbrev Rules := List (GoString × GoString)

/-- Go `config.Rules[url]`: the value stored under `url`, the zero value `""` when
`url` is not a key. -/
def ruleFor (rules : Rules) (url : GoString) : GoString :=
  (rules.lookup url).getD []

/-- Go `type Config struct { Time time.Duration; Parallel int; Rules map[string]string }`.
`Time` is an `int64`, `Parallel` an `int`. -/
structure Config where
  Time : Int
  Parallel : Int
  Rules : Rules
  deriving DecidableEq, Repr

/-! ## checkURL -/

/-- The part of an `*http.Response` that `checkURL` uses. `Body` is what
`ioutil.ReadAll(resp.Body)` yields when it is called: the bytes, or an error text. -/
structure Response where
  Status : GoString
  StatusCode : Int
  Body : Except GoString GoString

/-- What the outside world answers to one probe. -/
structure World where
  /-- `http.NewRequest("GET", url, nil)`: the error text when construction fails. -/
  newRequest : GoString → Option GoString
  /-- `client.Do(req)` for the request built from `url`. -/
  clientDo : GoString → Except GoString Response
  /-- The clock reading of `start := time.Now()`, in nanoseconds. -/
  start : Int
  /-- The clock reading inside `time.Since(start)`, in nanoseconds. -/
  later : Int

/-- An argument of a `log.Printf` call, tagged by the expression that supplies it. -/
inductive Arg where
  /-- The variable `url` (after normalisation). -/
  | url (s : GoString)
  /-- The text `err.Error()`. -/
  | errText (s : GoString)
  /-- The text `resp.Status`. -/
  | status (s : GoString)
  /-- A `time.Duration` in nanoseconds (`time.Since(start)` or `elapsed`). -/
  | latency (d : Int)
  deriving DecidableEq, Repr

/-- The effects of `checkURL`, in program order. -/
inductive Event where
  /-- `http.NewRequest("GET", url, nil)`. -/
  | newRequest (url : GoString)
  /-- `client.Do(req)`: the request for `url` is sent. -/
  | clientDo (url : GoString)
  /-- `ioutil.ReadAll(resp.Body)`. -/
  | readAll
  /-- `log.Printf(format, args...)`: one record handed to the log. -/
  | printf (format : String) (args : List Arg)
  /-- The deferred `resp.Body.Close()`. -/
  | bodyClose
  /-- The deferred `wg.Done()`. -/
  | wgDone
  deriving DecidableEq, Repr

/-- The first statement of `checkURL`:
`if !strings.HasPrefix(url, "http") { url = "http://" + url }`. -/
def normalize (url : GoString) : GoString :=
  if !hasPrefix url (ascii "http") then ascii "http://" ++ url else url

/-- Go `time.Since(start)` at the clock reading `later`. -/
def since (w : World) : Int := w.later - w.start

/-- Format of the record for a request that could not be built (line 121). -/
def fmtConstruct : String := "%s %s\n"
/-- Format of the records of lines 128, 134 and 143. -/
def fmtThree : String := "%s %s %v\n"
/-- Format of the record for a body that could not be read (line 140). -/
def fmtRead : String := "%s %s %v %s\n"
/-- Format of the positive content verdict (line 145). -/
def fmtSatisfied : String := "content requirement for %s is satisfied\n"
/-- Format of the negative content verdict (line 147). -/
def fmtNotSatisfied : String := "content requirement for %s isn\x27t satisfied\n"

/-- Go `checkURL(url, match, wg)`: the effects of one probe in the world `w`.
The two deferred calls run last, `resp.Body.Close()` before `wg.Done()`. -/
def checkURL (w : World) (url m : GoString) : List Event :=
  let url := normalize url
  match w.newRequest url with
  | some err =>
    [.newRequest url, .printf fmtConstruct [.url url, .errText err], .wgDone]
  | none =>
    match w.clientDo url with
    | .error err =>
      [.newRequest url, .clientDo url,
       .printf fmtThree [.url url, .errText err, .latency (since w)], .wgDone]
    | .ok resp =>
      let elapsed := since w
      if resp.StatusCode ≠ 200 then
        [.newRequest url, .clientDo url,
         .printf fmtThree [.url url, .status resp.Status, .latency elapsed],
         .bodyClose, .wgDone]
      else
        match resp.Body with
        | .error err =>
          [.newRequest url, .clientDo url, .readAll,
           .printf fmtRead [.url url, .status resp.Status, .latency elapsed, .errText err],
           .bodyClose, .wgDone]
        | .ok html =>
          [.newRequest url, .clientDo url, .readAll,
           .printf fmtThree [.url url, .status resp.Status, .latency elapsed],
           (if m ≠ [] && contains html m then
              .printf fmtSatisfied [.url url]
            else
              .printf fmtNotSatisfied [.url url]),
           .bodyClose, .wgDone]

/-! ## runChecks -/

/-- Go `time.Second`, in nanoseconds. -/
def second : Nat := 1000000000

/-- Where a goroutine spawned by `runChecks` stands in its body
`checkURL(url, config.Rules[url], &wg); time.Sleep(1 * time.Second); <-chanParallel`. -/
inductive Stage where
  /-- Created by the `go` statement; `checkURL` not yet called. -/
  | spawned
  /-- `checkURL` called and not yet returned. -/
  | inCheck
  /-- `checkURL` returned (its deferred `wg.Done()` ran); `time.Sleep` not yet called. -/
  | checked
  /-- Inside `time.Sleep(1 * time.Second)`, which returns no earlier than `wake`. -/
  | sleeping (wake : Nat)
  /-- `time.Sleep` returned; at the receive `<-chanParallel`. -/
  | slept
  /-- The receive took a token out of `chanParallel`; the goroutine has ended. -/
  | released
  deriving DecidableEq, Repr

/-- One goroutine spawned by `runChecks`. `idx` is the loop iteration that spawned
it and `url` the argument it was given. `doneAt` and `releasedAt` record the clock
reading at which `checkURL` returned and at which the slot was released. -/
structure Worker where
  idx : Nat
  url : GoString
  stage : Stage
  doneAt : Nat
  releasedAt : Nat
  deriving DecidableEq, Repr

/-- Where the goroutine that called `runChecks` stands. -/
inductive Pc where
  /-- Before `make(chan bool, config.Parallel)`. -/
  | entry
  /-- At the head of the `range` loop, `i` elements consumed. -/
  | loop (i : Nat)
  /-- In iteration `i`, after `wg.Add(1)`, at the send `chanParallel <- true`. -/
  | send (i : Nat)
  /-- In iteration `i`, after the send, at the `go` statement. -/
  | spawn (i : Nat)
  /-- At `wg.Wait()`. -/
  | wait
  /-- `runChecks` has returned. -/
  | returned
  /-- `make` panicked: the capacity is negative or out of range. -/
  | panicked
  deriving DecidableEq, Repr

/-- The state of one call of `runChecks`. -/
structure RState where
  pc : Pc
  /-- The counter of the `sync.WaitGroup`. -/
  wg : Nat
  /-- The number of tokens in `chanParallel`, `len(chanParallel)`. -/
  chan : Nat
  /-- The goroutines spawned so far, in the order of their `go` statements. -/
  workers : List Worker
  /-- The clock, in nanoseconds. -/
  now : Nat
  /-- The arguments `(url, match)` of the calls of `checkURL`, in call order. -/
  invoked : List (GoString × GoString)
  /-- The effects of the calls of `checkURL` that returned, in the order of return. -/
  results : List (List Event)
  deriving DecidableEq, Repr

/-- The state in which `runChecks` is entered at clock reading `t0`. -/
def RState.init (t0 : Nat) : RState :=
  { pc := .entry, wg := 0, chan := 0, workers := [], now := t0, invoked := [], results := [] }

/-- An atomic step of a round: of the caller of `runChecks`, of the goroutine at
position `j` of the list of spawned goroutines, or of the clock. -/
inductive Action where
  | main
  | worker (j : Nat)
  | tick (d : Nat)
  deriving DecidableEq, Repr

/-- One step of the body of `runChecks` in the calling goroutine. `lim` is the
largest capacity for which `make(chan bool, n)` succeeds; it belongs to the Go
runtime and is a parameter here: `make` panics on a negative capacity and on a
capacity above `lim`. A send on a full channel and `wg.Wait()` on a non-zero
counter block: there is no step. -/
def mainStep (urls : List GoString) (config : Config) (lim : Int) (s : RState) : Option RState :=
  match s.pc with
  | .entry =>
    if config.Parallel < 0 ∨ lim < config.Parallel then some { s with pc := .panicked }
    else some { s with pc := .loop 0 }
  | .loop i =>
    if i < urls.length then some { s with wg := s.wg + 1, pc := .send i }
    else some { s with pc := .wait }
  | .send i =>
    if (s.chan : Int) < config.Parallel then some { s with chan := s.chan + 1, pc := .spawn i }
    else none
  | .spawn i =>
    match urls[i]? with
    | some u =>
      some { s with
        workers := s.workers ++ [{ idx := i, url := u, stage := .spawned, doneAt := 0, releasedAt := 0 }],
        pc := .loop (i + 1) }
    | none => none
  | .wait => if s.wg = 0 then some { s with pc := .returned } else none
  | .returned => none
  | .panicked => none

/-- The number of `wg.Done()` calls among the effects of a call of `checkURL`. -/
def doneCount (tr : List Event) : Nat := tr.count Event.wgDone

/-- One step of the goroutine at position `j`. It probes in the world `net w.idx`;
the body of `checkURL` is one step, taken when the call returns: it records the
effects of the call and takes their `wg.Done()` off the counter. A `wg.Done()` on
a zero counter panics, a sleep that is not over and a receive on an empty channel
block: there is no step. -/
def workerStep (config : Config) (net : Nat → World) (j : Nat) (s : RState) : Option RState :=
  match s.workers[j]? with
  | none => none
  | some w =>
    match w.stage with
    | .spawned =>
      some { s with
        workers := s.workers.set j { w with stage := .inCheck },
        invoked := s.invoked ++ [(w.url, ruleFor config.Rules w.url)] }
    | .inCheck =>
      let tr := checkURL (net w.idx) w.url (ruleFor config.Rules w.url)
      if doneCount tr ≤ s.wg then
        some { s with
          wg := s.wg - doneCount tr,
          workers := s.workers.set j { w with stage := .checked, doneAt := s.now },
          results := s.results ++ [tr] }
      else none
    | .checked =>
      some { s with workers := s.workers.set j { w with stage := .sleeping (s.now + 1 * second) } }
    | .sleeping wake =>
      if wake ≤ s.now then some { s with workers := s.workers.set j { w with stage := .slept } }
      else none
    | .slept =>
      if 0 < s.chan then
        some { s with
          chan := s.chan - 1,
          workers := s.workers.set j { w with stage := .released, releasedAt := s.now } }
      else none
    | .released => none

/-- One atomic step of a round. -/
def fire (urls : List GoString) (config : Config) (lim : Int) (net : Nat → World)
    (a : Action) (s : RState) : Option RState :=
  match a with
  | .main => mainStep urls config lim s
  | .worker j => workerStep config net j s
  | .tick d => some { s with now := s.now + d }

/-- A schedule run from a state; `none` when one of its steps is not enabled. -/
def run (urls : List GoString) (config : Config) (lim : Int) (net : Nat → World) :
    List Action → RState → Option RState
  | [], s => some s
  | a :: acts, s => (fire urls config lim net a s).bind (run urls config lim net acts)

/-- The states a call `runChecks(urls, config)` entered at clock reading `t0` can be in. -/
inductive Reachable (urls : List GoString) (config : Config) (lim : Int) (net : Nat → World) (t0 : Nat) :
    RState → Prop where
  | init : Reachable urls config lim net t0 (RState.init t0)
  | step {s s' : RState} (a : Action) :
      Reachable urls config lim net t0 s → fire urls config lim net a s = some s' →
      Reachable urls config lim net t0 s'

/-- Whether a goroutine in this stage still holds the slot it was admitted with. -/
def Stage.holdsSlot : Stage → Nat
  | .released => 0
  | _ => 1

/-- Whether a goroutine in this stage has not yet signalled completion to the wait group. -/
def Stage.pending : Stage → Nat
  | .spawned => 1
  | .inCheck => 1
  | _ => 0

/-- The sum of `f` over the goroutines. -/
def total (f : Worker → Nat) (ws : List Worker) : Nat := (ws.map f).sum

/-- The number of probers admitted by the throttle (a token was sent on
`chanParallel` for them) that have not released their slot: the goroutines that
have not yet received from the channel, and the prober of the current iteration
when its token is sent and its `go` statement has not run yet. -/
def outstanding (s : RState) : Nat :=
  total (fun w => w.stage.holdsSlot) s.workers +
    (match s.pc with
     | .spawn _ => 1
     | _ => 0)

/-- The number of calls of `checkURL` that have returned. -/
def completed (s : RState) : Nat := s.results.length

/-! ## runPeriodicalChecks -/

/-- The state of the ticker made by `runPeriodicalChecks` and of the goroutine
that reads it, `for { select { case <-ticker.C: runChecks(urls, config) } }`. -/
structure TState where
  /-- The clock, in nanoseconds. -/
  now : Nat
  /-- The clock reading at which the ticker fires next. -/
  nextFire : Nat
  /-- Whether `ticker.C`, a channel of capacity one, holds a value. -/
  buffered : Bool
  /-- The call of `runChecks` the loop is inside of; `none` when it is at the receive. -/
  round : Option RState
  /-- The number of times the ticker has fired. -/
  fired : Nat
  /-- The number of firings that found `ticker.C` full and were dropped. -/
  dropped : Nat
  /-- The arguments of the calls of `runChecks` the loop has made, in order. -/
  calls : List (List GoString × Config)
  deriving DecidableEq, Repr

/-- The ticker and the loop when `time.NewTicker` returns at clock reading `t0`. -/
def TState.init (t0 period : Nat) : TState :=
  { now := t0, nextFire := t0 + period, buffered := false, round := none,
    fired := 0, dropped := 0, calls := [] }

/-- The content verdict an effect carries: `true` for the record of line 145,
`false` for the record of line 147. -/
def Event.verdict? : Event → Option Bool
  | .printf f _ =>
    if f = fmtSatisfied then some true
    else if f = fmtNotSatisfied then some false
    else none
  | _ => none

/-- The content verdicts of a trace, in order. -/
def verdicts (tr : List Event) : List Bool := tr.filterMap Event.verdict?

/-- The arguments of a `log.Printf` effect. -/
def Event.record? : Event → Option (List Arg)
  | .printf _ args => some args
  | _ => none

/-- The records a trace hands to the log, in order. -/
def records (tr : List Event) : List (List Arg) := tr.filterMap Event.record?

/-- Whether an argument is a latency. -/
def Arg.isLatency : Arg → Bool
  | .latency _ => true
  | _ => false

/-- Whether an argument is an HTTP status. -/
def Arg.isStatus : Arg → Bool
  | .status _ => true
  | _ => false

/-- The URLs a trace sends a request for. -/
def requested (tr : List Event) : List GoString :=
  tr.filterMap (fun e => match e with
    | .clientDo u => some u
    | _ => none)

/-! ## Invariants of a round -/

/-- The number of list elements the caller of `runChecks` has spawned a goroutine for. -/
def pcIndex (urls : List GoString) : Pc → Nat
  | .entry => 0
  | .loop i => i
  | .send i => i
  | .spawn i => i
  | .wait => urls.length
  | .returned => urls.length
  | .panicked => 0

/-- One when the caller has done `wg.Add(1)` for an element whose goroutine does
not exist yet. -/
def pcAdded : Pc → Nat
  | .send _ => 1
  | .spawn _ => 1
  | _ => 0

/-- The arguments of the call of `checkURL` a goroutine has made, if it has made it. -/
def invokedOf (config : Config) (w : Worker) : Option (GoString × GoString) :=
  match w.stage with
  | .spawned => none
  | _ => some (w.url, ruleFor config.Rules w.url)

/-- The effects of the call of `checkURL` of a goroutine, if the call has returned. -/
def resultOf (config : Config) (net : Nat → World) (w : Worker) : Option (List Event) :=
  match w.stage with
  | .spawned => none
  | .inCheck => none
  | _ => some (checkURL (net w.idx) w.url (ruleFor config.Rules w.url))

/-- What the clock readings of a goroutine satisfy at clock reading `now`. -/
def timeOk (now : Nat) (w : Worker) : Prop :=
  match w.stage with
  | .spawned => True
  | .inCheck => True
  | .checked => w.doneAt ≤ now
  | .sleeping wake => w.doneAt + 1 * second ≤ wake
  | .slept => w.doneAt + 1 * second ≤ now
  | .released => w.doneAt + 1 * second ≤ w.releasedAt ∧ w.releasedAt ≤ now

/-- The invariant of a round. -/
structure Inv (urls : List GoString) (config : Config) (net : Nat → World) (s : RState) :
    Prop where
  notPanicked : s.pc ≠ .panicked
  pcLe : pcIndex urls s.pc ≤ urls.length
  pcLt : pcAdded s.pc = 1 → pcIndex urls s.pc < urls.length
  urlsEq : s.workers.map (fun w => w.url) = urls.take (pcIndex urls s.pc)
  idxEq : s.workers.map (fun w => w.idx) = List.range (pcIndex urls s.pc)
  chanEq : s.chan = outstanding s
  chanLe : (s.chan : Int) ≤ config.Parallel
  wgEq : s.wg = total (fun w => w.stage.pending) s.workers + pcAdded s.pc
  invokedPerm : s.invoked.Perm (s.workers.filterMap (invokedOf config))
  resultsPerm : s.results.Perm (s.workers.filterMap (resultOf config net))
  timing : ∀ w ∈ s.workers, timeOk s.now w
  retWg : s.pc = .returned → s.wg = 0

/-- The number of steps a goroutine in this stage still has to take. -/
def Stage.remaining : Stage → Nat
  | .spawned => 5
  | .inCheck => 4
  | .checked => 3
  | .sleeping _ => 2
  | .slept => 1
  | .released => 0

/-- The number of steps the caller of `runChecks` still has to take, with five more
for each goroutine it has yet to spawn. -/
def pcMeasure (urls : List GoString) : Pc → Nat
  | .entry => 8 * urls.length + 3
  | .loop i => 8 * (urls.length - i) + 2
  | .send i => 8 * (urls.length - i) + 1
  | .spawn i => 8 * (urls.length - i)
  | .wait => 1
  | .returned => 0
  | .panicked => 0

/-- The number of steps of the program (clock steps apart) a round still has to take. -/
def measure (urls : List GoString) (s : RState) : Nat :=
  pcMeasure urls s.pc + total (fun w => w.stage.remaining) s.workers

/-! ## Concrete inputs -/

/-- A world whose server answers `200 OK` with the body `hello`. -/
def worldOk : World :=
  { newRequest := fun _ => none
    clientDo := fun _ => .ok { Status := ascii "200 OK", StatusCode := 200, Body := .ok (ascii "hello") }
    start := 5
    later := 9 }

/-- A world in which no request can be built. -/
def worldMalformed : World :=
  { newRequest := fun _ => some (ascii "invalid URL")
    clientDo := fun _ => .error (ascii "unreachable")
    start := 5
    later := 9 }

/-- A world in which sending fails. -/
def worldDown : World :=
  { newRequest := fun _ => none
    clientDo := fun _ => .error (ascii "connection refused")
    start := 5
    later := 9 }

/-- A world whose server answers `404 Not Found`. -/
def world404 : World :=
  { newRequest := fun _ => none
    clientDo := fun _ =>
      .ok { Status := ascii "404 Not Found", StatusCode := 404, Body := .ok (ascii "gone") }
    start := 5
    later := 9 }

/-- A world whose server answers `200 OK` and whose body cannot be read. -/
def worldBadBody : World :=
  { newRequest := fun _ => none
    clientDo := fun _ =>
      .ok { Status := ascii "200 OK", StatusCode := 200, Body := .error (ascii "unexpected EOF") }
    start := 5
    later := 9 }

/-- The largest capacity `make(chan bool, n)` accepts in the 64-bit Go runtime:
`maxAlloc - hchanSize` bytes of one-byte elements. -/
def chanLimit64 : Int := 2 ^ 48 - 96

/-- Five targets, one of them listed twice. -/
def fiveTargets : List GoString :=
  [ascii "a.com", ascii "b.org", ascii "a.com", ascii "c.net", ascii "d.io"]

/-- A configuration with two slots, an interval of five minutes and one rule. -/
def twoSlots : Config :=
  { Time := 5, Parallel := 2, Rules := [(ascii "a.com", ascii "ell")] }

/-- The caller enters the round and runs two iterations and the `wg.Add(1)` of a third. -/
def admitTwo : List Action :=
  [.main, .main, .main, .main, .main, .main, .main, .main]

/-- The state of the round of `fiveTargets` under `twoSlots` after `admitTwo`. -/
def stateTwoAdmitted : RState :=
  (run fiveTargets twoSlots chanLimit64 (fun _ => worldOk) admitTwo (RState.init 0)).getD (RState.init 0)

/-- A configuration whose `Parallel` is positive and above `chanLimit64`. -/
def hugeParallel : Config :=
  { Time := 1, Parallel := 2 ^ 62, Rules := [] }

/-- The same target twice. -/
def twiceTarget : List GoString := [ascii "a.com", ascii "a.com"]

/-- A configuration with one slot, an interval of one minute and one rule. -/
def oneSlot : Config :=
  { Time := 1, Parallel := 1, Rules := [(ascii "a.com", ascii "ell")] }

/-- A schedule that runs the round of two targets with one slot to its return: the
second send waits until the first goroutine has probed, slept one second and
released its slot. -/
def oneByOne : List Action :=
  [.main, .main, .main, .main, .main,
   .worker 0, .worker 0, .worker 0, .tick 1000000000, .worker 0, .worker 0,
   .main, .main, .main, .worker 1, .worker 1, .main]

/-- The state of the round of `twiceTarget` under `oneSlot` after `oneByOne`. -/
def stateOneByOne : RState :=
  (run twiceTarget oneSlot chanLimit64 (fun _ => worldOk) oneByOne (RState.init 0)).getD (RState.init 0)

/-- The first goroutine has slept and is at its receive. -/
def untilSlept : List Action :=
  [.main, .main, .main, .main, .main,
   .worker 0, .worker 0, .worker 0, .tick 1000000000, .worker 0]

/-- The state of the round of `twiceTarget` under `oneSlot` after `untilSlept`. -/
def stateSlept : RState :=
  (run twiceTarget oneSlot chanLimit64 (fun _ => worldOk) untilSlept (RState.init 0)).getD (RState.init 0)

/-- A rule map whose only key is the normalised form of `example.com`. -/
def normalisedKey : Config :=
  { Time := 1, Parallel := 1, Rules := [(ascii "http://example.com", ascii "hello")] }

/-- The state of the round of the one target `example.com` under `normalisedKey`
once its goroutine has called `checkURL`. -/
def stateInvoked : RState :=
  (run [ascii "example.com"] normalisedKey chanLimit64 (fun _ => worldOk)
    [.main, .main, .main, .main, .worker 0] (RState.init 0)).getD (RState.init 0)

theorem hasPrefix_iff (s pre : GoString) : hasPrefix s pre = true ↔ pre <+: s := by
  unfold hasPrefix
  rw [List.prefix_iff_eq_take]
  constructor
  · intro h
    simp only [Bool.and_eq_true, decide_eq_true_eq, beq_iff_eq] at h
    exact h.2.symm
  · intro h
    have hl : pre.length ≤ s.length := by
      have := congrArg List.length h
      rw [List.length_take] at this
      omega
    simp only [Bool.and_eq_true, decide_eq_true_eq, beq_iff_eq]
    exact ⟨hl, h.symm⟩

theorem contains_iff (s substr : GoString) : contains s substr = true ↔ substr <:+: s := by
  induction s with
  | nil =>
    unfold contains
    rw [hasPrefix_iff]
    simp
  | cons c s ih =>
    unfold contains
    rw [Bool.or_eq_true, hasPrefix_iff, ih, List.infix_cons_iff]

theorem normalize_of_http (url : GoString) (h : ascii "http" <+: url) : normalize url = url := by
  unfold normalize
  rw [(hasPrefix_iff url (ascii "http")).2 h]
  rfl

theorem normalize_of_not_http (url : GoString) (h : ¬ ascii "http" <+: url) :
    normalize url = ascii "http://" ++ url := by
  unfold normalize
  have : hasPrefix url (ascii "http") = false := by
    rw [← Bool.not_eq_true, hasPrefix_iff]
    exact h
  rw [this]
  rfl

/-! ## checkURL: theorems -/

/-- C1: the scheme-less address `httpbin.org` begins with neither `http://` nor
`https://`, and `checkURL` builds and sends its request for `httpbin.org` itself,
not for `http://httpbin.org`. -/
theorem checkURL_httpbin_unchanged :
    hasPrefix (ascii "httpbin.org") (ascii "http://") = false ∧
    hasPrefix (ascii "httpbin.org") (ascii "https://") = false ∧
    normalize (ascii "httpbin.org") = ascii "httpbin.org" ∧
    requested (checkURL worldOk (ascii "httpbin.org") []) = [ascii "httpbin.org"] ∧
    requested (checkURL worldOk (ascii "httpbin.org") []) ≠ [ascii "http://" ++ ascii "httpbin.org"] := by
  decide

/-- The trace of a probe that gets status 200 and reads the body. -/
theorem checkURL_ok (w : World) (url m : GoString) (resp : Response) (html : GoString)
    (hreq : w.newRequest (normalize url) = none)
    (hdo : w.clientDo (normalize url) = .ok resp)
    (hst : resp.StatusCode = 200)
    (hbody : resp.Body = .ok html) :
    checkURL w url m =
      [.newRequest (normalize url), .clientDo (normalize url), .readAll,
       .printf fmtThree [.url (normalize url), .status resp.Status, .latency (w.later - w.start)],
       (if m ≠ [] ∧ m <:+: html then .printf fmtSatisfied [.url (normalize url)]
        else .printf fmtNotSatisfied [.url (normalize url)]),
       .bodyClose, .wgDone] := by
  unfold checkURL
  simp only [hreq, hdo, hst, hbody, since]
  by_cases hm : m = []
  · simp [hm]
  · by_cases hc : m <:+: html
    · have := (contains_iff html m).2 hc
      simp [hm, hc, this]
    · have : contains html m = false := by
        rw [← Bool.not_eq_true, contains_iff]
        exact hc
      simp [hm, hc, this]

/-- The trace of a probe whose request cannot be built. -/
theorem checkURL_construct_err (w : World) (url m err : GoString)
    (hreq : w.newRequest (normalize url) = some err) :
    checkURL w url m =
      [.newRequest (normalize url),
       .printf fmtConstruct [.url (normalize url), .errText err], .wgDone] := by
  unfold checkURL
  simp only [hreq]

/-- The trace of a probe whose request cannot be sent. -/
theorem checkURL_send_err (w : World) (url m err : GoString)
    (hreq : w.newRequest (normalize url) = none)
    (hdo : w.clientDo (normalize url) = .error err) :
    checkURL w url m =
      [.newRequest (normalize url), .clientDo (normalize url),
       .printf fmtThree [.url (normalize url), .errText err, .latency (w.later - w.start)],
       .wgDone] := by
  unfold checkURL
  simp only [hreq, hdo, since]

/-- The trace of a probe that gets a status code other than 200. -/
theorem checkURL_bad_status (w : World) (url m : GoString) (resp : Response)
    (hreq : w.newRequest (normalize url) = none)
    (hdo : w.clientDo (normalize url) = .ok resp)
    (hst : resp.StatusCode ≠ 200) :
    checkURL w url m =
      [.newRequest (normalize url), .clientDo (normalize url),
       .printf fmtThree
         [.url (normalize url), .status resp.Status, .latency (w.later - w.start)],
       .bodyClose, .wgDone] := by
  unfold checkURL
  simp only [hreq, hdo, since, hst, ne_eq, not_false_eq_true, if_true]

/-- The trace of a probe that gets status 200 and cannot read the body. -/
theorem checkURL_read_err (w : World) (url m : GoString) (resp : Response) (err : GoString)
    (hreq : w.newRequest (normalize url) = none)
    (hdo : w.clientDo (normalize url) = .ok resp)
    (hst : resp.StatusCode = 200)
    (hbody : resp.Body = .error err) :
    checkURL w url m =
      [.newRequest (normalize url), .clientDo (normalize url), .readAll,
       .printf fmtRead
         [.url (normalize url), .status resp.Status, .latency (w.later - w.start),
          .errText err],
       .bodyClose, .wgDone] := by
  unfold checkURL
  simp only [hreq, hdo, since, hst, hbody, ne_eq, not_true_eq_false, if_false]

theorem verdict_three (args : List Arg) : (Event.printf fmtThree args).verdict? = none := by
  simp [Event.verdict?, fmtThree, fmtSatisfied, fmtNotSatisfied]

theorem verdict_satisfied (args : List Arg) :
    (Event.printf fmtSatisfied args).verdict? = some true := by
  simp [Event.verdict?]

theorem verdict_notSatisfied (args : List Arg) :
    (Event.printf fmtNotSatisfied args).verdict? = some false := by
  simp [Event.verdict?, fmtSatisfied, fmtNotSatisfied]

theorem verdict_bodyClose : Event.bodyClose.verdict? = none := rfl

theorem verdict_newRequest (u : GoString) : (Event.newRequest u).verdict? = none := rfl

theorem verdict_clientDo (u : GoString) : (Event.clientDo u).verdict? = none := rfl

theorem verdict_readAll : Event.readAll.verdict? = none := rfl

theorem verdict_wgDone : Event.wgDone.verdict? = none := rfl

/-- C2: when a probe gets status 200 and reads the body `html`, and the expected
content `m` is not empty, the probe carries exactly one content verdict; it is
"satisfied" if and only if `m` occurs in `html` as a contiguous run of equal bytes,
and "not satisfied" if and only if it does not. -/
theorem checkURL_content_verdict (w : World) (url m : GoString) (resp : Response)
    (html : GoString)
    (hreq : w.newRequest (normalize url) = none)
    (hdo : w.clientDo (normalize url) = .ok resp)
    (hst : resp.StatusCode = 200)
    (hbody : resp.Body = .ok html)
    (hm : m ≠ []) :
    (verdicts (checkURL w url m) = [true] ↔ m <:+: html) ∧
    (verdicts (checkURL w url m) = [false] ↔ ¬ m <:+: html) := by
  rw [checkURL_ok w url m resp html hreq hdo hst hbody]
  by_cases hc : m <:+: html
  · simp only [verdicts, hm, hc, ne_eq, not_false_eq_true, and_self, if_true,
      List.filterMap_cons, List.filterMap_nil, verdict_three, verdict_satisfied, verdict_bodyClose,
      verdict_wgDone, verdict_newRequest, verdict_clientDo, verdict_readAll]
    simp
  · simp only [verdicts, hm, hc, ne_eq, not_false_eq_true, and_false, if_false,
      List.filterMap_cons, List.filterMap_nil, verdict_three, verdict_notSatisfied,
      verdict_bodyClose, verdict_wgDone, verdict_newRequest, verdict_clientDo, verdict_readAll]
    simp

/-- Witness of C2: the rule `ell` against the body `hello`. -/
theorem checkURL_content_verdict_witness :
    (verdicts (checkURL worldOk (ascii "example.com") (ascii "ell")) = [true] ↔
      ascii "ell" <:+: ascii "hello") ∧
    (verdicts (checkURL worldOk (ascii "example.com") (ascii "ell")) = [false] ↔
      ¬ ascii "ell" <:+: ascii "hello") :=
  checkURL_content_verdict worldOk (ascii "example.com") (ascii "ell")
    { Status := ascii "200 OK", StatusCode := 200, Body := .ok (ascii "hello") } (ascii "hello")
    rfl rfl rfl rfl (by decide)

/-- C3, as stated, fails: `example.com` has no rule in the empty rule map, the
probe gets status 200 and reads the body, and the trace carries a content verdict,
"not satisfied". -/
theorem checkURL_no_rule_verdict_counterexample :
    List.lookup (ascii "example.com") ([] : Rules) = none ∧
    ¬ verdicts (checkURL worldOk (ascii "example.com") (ruleFor [] (ascii "example.com"))) = [] := by
  decide

/-- C3, amended: for an address with no rule, or with the empty rule, a probe that
gets status 200 and reads the body logs the status record and then the
"not satisfied" verdict, whatever the body is; it never logs "satisfied". -/
theorem checkURL_no_rule_verdict (rules : Rules) (w : World) (url : GoString)
    (resp : Response) (html : GoString)
    (hrule : rules.lookup url = none ∨ rules.lookup url = some [])
    (hreq : w.newRequest (normalize url) = none)
    (hdo : w.clientDo (normalize url) = .ok resp)
    (hst : resp.StatusCode = 200)
    (hbody : resp.Body = .ok html) :
    verdicts (checkURL w url (ruleFor rules url)) = [false] ∧
    checkURL w url (ruleFor rules url) =
      [.newRequest (normalize url), .clientDo (normalize url), .readAll,
       .printf fmtThree [.url (normalize url), .status resp.Status, .latency (w.later - w.start)],
       .printf fmtNotSatisfied [.url (normalize url)],
       .bodyClose, .wgDone] := by
  have hr : ruleFor rules url = [] := by
    unfold ruleFor
    rcases hrule with h | h <;> rw [h] <;> rfl
  rw [hr, checkURL_ok w url [] resp html hreq hdo hst hbody]
  simp only [verdicts, ne_eq, not_true_eq_false, false_and, if_false,
    List.filterMap_cons, List.filterMap_nil, verdict_three, verdict_notSatisfied,
    verdict_bodyClose, verdict_wgDone, verdict_newRequest, verdict_clientDo, verdict_readAll,
    and_self]

/-- Witness of the amended C3: a rule map that has a rule for another address only. -/
theorem checkURL_no_rule_verdict_witness :
    verdicts (checkURL worldOk (ascii "example.com")
      (ruleFor [(ascii "other.org", ascii "hello")] (ascii "example.com"))) = [false] ∧
    checkURL worldOk (ascii "example.com")
      (ruleFor [(ascii "other.org", ascii "hello")] (ascii "example.com")) =
      [.newRequest (normalize (ascii "example.com")), .clientDo (normalize (ascii "example.com")),
       .readAll,
       .printf fmtThree [.url (normalize (ascii "example.com")), .status (ascii "200 OK"),
         .latency (worldOk.later - worldOk.start)],
       .printf fmtNotSatisfied [.url (normalize (ascii "example.com"))],
       .bodyClose, .wgDone] :=
  checkURL_no_rule_verdict [(ascii "other.org", ascii "hello")] worldOk (ascii "example.com")
    { Status := ascii "200 OK", StatusCode := 200, Body := .ok (ascii "hello") } (ascii "hello")
    (Or.inl (by decide)) rfl rfl rfl rfl

/-- C4, as stated, fails: when the request for `exa mple.com` cannot be built, the
one record of the probe holds the URL and the error text and no latency. -/
theorem checkURL_construct_failure_counterexample :
    worldMalformed.newRequest (normalize (ascii "exa mple.com")) = some (ascii "invalid URL") ∧
    records (checkURL worldMalformed (ascii "exa mple.com") []) =
      [[.url (ascii "http://exa mple.com"), .errText (ascii "invalid URL")]] ∧
    ¬ ∃ r ∈ records (checkURL worldMalformed (ascii "exa mple.com") []),
        r.any Arg.isLatency = true := by
  decide

/-- C4, amended: when request construction fails, `checkURL` emits one record with
the requested URL and the error text, without status and without latency; when
sending fails, it emits one record with the requested URL, the error text and the
time from `start` (taken just before the send) to the failure, without status. In
both cases nothing follows but `wg.Done()`: no body read, no content verdict. -/
theorem checkURL_transport_failure (w : World) (url m : GoString) :
    (∀ err, w.newRequest (normalize url) = some err →
      checkURL w url m =
        [.newRequest (normalize url),
         .printf fmtConstruct [.url (normalize url), .errText err], .wgDone]) ∧
    (∀ err, w.newRequest (normalize url) = none → w.clientDo (normalize url) = .error err →
      checkURL w url m =
        [.newRequest (normalize url), .clientDo (normalize url),
         .printf fmtThree [.url (normalize url), .errText err, .latency (w.later - w.start)],
         .wgDone]) := by
  exact ⟨fun err hreq => checkURL_construct_err w url m err hreq,
    fun err hreq hdo => checkURL_send_err w url m err hreq hdo⟩

/-- Witness of the amended C4: a request that cannot be built, and a server that
refuses the connection. -/
theorem checkURL_transport_failure_witness :
    checkURL worldMalformed (ascii "exa mple.com") [] =
      [.newRequest (normalize (ascii "exa mple.com")),
       .printf fmtConstruct [.url (normalize (ascii "exa mple.com")),
         .errText (ascii "invalid URL")], .wgDone] ∧
    checkURL worldDown (ascii "example.com") [] =
      [.newRequest (normalize (ascii "example.com")), .clientDo (normalize (ascii "example.com")),
       .printf fmtThree [.url (normalize (ascii "example.com")),
         .errText (ascii "connection refused"), .latency (worldDown.later - worldDown.start)],
       .wgDone] :=
  ⟨(checkURL_transport_failure worldMalformed (ascii "exa mple.com") []).1
      (ascii "invalid URL") rfl,
   (checkURL_transport_failure worldDown (ascii "example.com") []).2
      (ascii "connection refused") rfl rfl⟩

/-- C5: when a probe obtains a response whose status code is not 200, `checkURL`
emits one record with the requested URL, the status and the elapsed latency, and
never reads the body; when the status code is 200 and the body cannot be read, it
emits one record with the requested URL, the status, the elapsed latency and the
read error. In both cases there is exactly one record and no content verdict. -/
theorem checkURL_response_failure (w : World) (url m : GoString) (resp : Response)
    (hreq : w.newRequest (normalize url) = none)
    (hdo : w.clientDo (normalize url) = .ok resp) :
    (resp.StatusCode ≠ 200 →
      checkURL w url m =
        [.newRequest (normalize url), .clientDo (normalize url),
         .printf fmtThree
           [.url (normalize url), .status resp.Status, .latency (w.later - w.start)],
         .bodyClose, .wgDone] ∧
      Event.readAll ∉ checkURL w url m) ∧
    (∀ err, resp.StatusCode = 200 → resp.Body = .error err →
      checkURL w url m =
        [.newRequest (normalize url), .clientDo (normalize url), .readAll,
         .printf fmtRead
           [.url (normalize url), .status resp.Status, .latency (w.later - w.start),
            .errText err],
         .bodyClose, .wgDone]) ∧
    ((resp.StatusCode ≠ 200 ∨ resp.StatusCode = 200 ∧ ∃ err, resp.Body = .error err) →
      (records (checkURL w url m)).length = 1 ∧ verdicts (checkURL w url m) = []) := by
  have h1 := checkURL_bad_status w url m resp hreq hdo
  have h2 := fun err hst hbody => checkURL_read_err w url m resp err hreq hdo hst hbody
  refine ⟨fun hst => ⟨h1 hst, ?_⟩, h2, ?_⟩
  · rw [h1 hst]
    simp
  · rintro (hst | ⟨hst, err, hbody⟩)
    · rw [h1 hst]
      simp only [records, verdicts, List.filterMap_cons, List.filterMap_nil, verdict_three,
        verdict_bodyClose, verdict_wgDone, verdict_newRequest, verdict_clientDo,
        Event.record?, List.length_cons, List.length_nil, and_self]
    · rw [h2 err hst hbody]
      have hv : ∀ args, (Event.printf fmtRead args).verdict? = none := by
        intro args
        simp [Event.verdict?, fmtRead, fmtSatisfied, fmtNotSatisfied]
      simp only [records, verdicts, List.filterMap_cons, List.filterMap_nil, hv,
        verdict_bodyClose, verdict_wgDone, verdict_newRequest, verdict_clientDo,
        verdict_readAll, Event.record?, List.length_cons, List.length_nil, and_self]

/-- Witness of C5: a server that answers 404, and a server whose body cannot be read. -/
theorem checkURL_response_failure_witness :
    (checkURL world404 (ascii "example.com") (ascii "hello") =
        [.newRequest (normalize (ascii "example.com")),
         .clientDo (normalize (ascii "example.com")),
         .printf fmtThree
           [.url (normalize (ascii "example.com")), .status (ascii "404 Not Found"),
            .latency (world404.later - world404.start)],
         .bodyClose, .wgDone] ∧
      Event.readAll ∉ checkURL world404 (ascii "example.com") (ascii "hello")) ∧
    checkURL worldBadBody (ascii "example.com") (ascii "hello") =
        [.newRequest (normalize (ascii "example.com")),
         .clientDo (normalize (ascii "example.com")), .readAll,
         .printf fmtRead
           [.url (normalize (ascii "example.com")), .status (ascii "200 OK"),
            .latency (worldBadBody.later - worldBadBody.start),
            .errText (ascii "unexpected EOF")],
         .bodyClose, .wgDone] ∧
    ((records (checkURL world404 (ascii "example.com") (ascii "hello"))).length = 1 ∧
      verdicts (checkURL world404 (ascii "example.com") (ascii "hello")) = []) :=
  ⟨(checkURL_response_failure world404 (ascii "example.com") (ascii "hello")
      { Status := ascii "404 Not Found", StatusCode := 404, Body := .ok (ascii "gone") }
      rfl rfl).1 (by decide),
   (checkURL_response_failure worldBadBody (ascii "example.com") (ascii "hello")
      { Status := ascii "200 OK", StatusCode := 200, Body := .error (ascii "unexpected EOF") }
      rfl rfl).2.1 (ascii "unexpected EOF") rfl rfl,
   (checkURL_response_failure world404 (ascii "example.com") (ascii "hello")
      { Status := ascii "404 Not Found", StatusCode := 404, Body := .ok (ascii "gone") }
      rfl rfl).2.2 (Or.inl (by decide))⟩

/-! ## Lists: lemmas -/

theorem total_append (f : Worker → Nat) (l : List Worker) (a : Worker) :
    total f (l ++ [a]) = total f l + f a := by
  simp [total]

theorem total_set (f : Worker → Nat) (l : List Worker) (j : Nat) (a b : Worker)
    (h : l[j]? = some b) : total f (l.set j a) + f b = total f l + f a := by
  induction l generalizing j with
  | nil => simp at h
  | cons c l ih =>
    cases j with
    | zero =>
      simp only [List.getElem?_cons_zero, Option.some.injEq] at h
      subst h
      simp only [total, List.set_cons_zero, List.map_cons, List.sum_cons]
      omega
    | succ j =>
      simp only [List.getElem?_cons_succ] at h
      have := ih j h
      simp only [total, List.set_cons_succ, List.map_cons, List.sum_cons] at this ⊢
      omega

theorem le_total_of_getElem? (f : Worker → Nat) (l : List Worker) (j : Nat) (b : Worker)
    (h : l[j]? = some b) : f b ≤ total f l := by
  induction l generalizing j with
  | nil => simp at h
  | cons c l ih =>
    cases j with
    | zero =>
      simp only [List.getElem?_cons_zero, Option.some.injEq] at h
      subst h
      simp only [total, List.map_cons, List.sum_cons]
      omega
    | succ j =>
      simp only [List.getElem?_cons_succ] at h
      have := ih j h
      simp only [total, List.map_cons, List.sum_cons] at this ⊢
      omega

theorem exists_of_total_pos (f : Worker → Nat) (l : List Worker) (h : 0 < total f l) :
    ∃ (j : Nat) (b : Worker), l[j]? = some b ∧ 0 < f b := by
  induction l with
  | nil => simp [total] at h
  | cons c l ih =>
    by_cases hc : 0 < f c
    · exact ⟨0, c, by simp, hc⟩
    · have hl : 0 < total f l := by
        simp only [total, List.map_cons, List.sum_cons] at h ⊢
        omega
      obtain ⟨j, b, hj, hb⟩ := ih hl
      exact ⟨j + 1, b, by simpa using hj, hb⟩

theorem filterMap_set_same {β : Type} (g : Worker → Option β) (l : List Worker) (j : Nat)
    (a b : Worker) (h : l[j]? = some b) (hg : g a = g b) :
    (l.set j a).filterMap g = l.filterMap g := by
  induction l generalizing j with
  | nil => simp at h
  | cons c l ih =>
    cases j with
    | zero =>
      simp only [List.getElem?_cons_zero, Option.some.injEq] at h
      subst h
      simp only [List.set_cons_zero, List.filterMap_cons, hg]
    | succ j =>
      simp only [List.getElem?_cons_succ] at h
      simp only [List.set_cons_succ, List.filterMap_cons, ih j h]

theorem filterMap_set_new {β : Type} (g : Worker → Option β) (l : List Worker) (j : Nat)
    (a b : Worker) (x : β) (h : l[j]? = some b) (hb : g b = none) (ha : g a = some x) :
    ((l.set j a).filterMap g).Perm (l.filterMap g ++ [x]) := by
  induction l generalizing j with
  | nil => simp at h
  | cons c l ih =>
    cases j with
    | zero =>
      simp only [List.getElem?_cons_zero, Option.some.injEq] at h
      subst h
      simp only [List.set_cons_zero, List.filterMap_cons, hb, ha]
      exact (List.perm_append_singleton x _).symm
    | succ j =>
      simp only [List.getElem?_cons_succ] at h
      have := ih j h
      simp only [List.set_cons_succ, List.filterMap_cons]
      cases g c with
      | none => exact this
      | some y => exact List.Perm.cons y this

theorem map_set_same {β : Type} (f : Worker → β) (l : List Worker) (j : Nat)
    (a b : Worker) (h : l[j]? = some b) (hf : f a = f b) :
    (l.set j a).map f = l.map f := by
  induction l generalizing j with
  | nil => simp at h
  | cons c l ih =>
    cases j with
    | zero =>
      simp only [List.getElem?_cons_zero, Option.some.injEq] at h
      subst h
      simp only [List.set_cons_zero, List.map_cons, hf]
    | succ j =>
      simp only [List.getElem?_cons_succ] at h
      simp only [List.set_cons_succ, List.map_cons, ih j h]

theorem forall_mem_set (P : Worker → Prop) (l : List Worker) (j : Nat) (a : Worker)
    (hl : ∀ w ∈ l, P w) (ha : P a) : ∀ w ∈ l.set j a, P w := by
  intro w hw
  rcases List.mem_or_eq_of_mem_set hw with h | h
  · exact hl w h
  · exact h ▸ ha

/-- The effects of `checkURL` are those of one of its five paths. -/
theorem checkURL_cases (w : World) (url m : GoString) :
    (∃ err, checkURL w url m =
        [.newRequest (normalize url),
         .printf fmtConstruct [.url (normalize url), .errText err], .wgDone]) ∨
    (∃ err, checkURL w url m =
        [.newRequest (normalize url), .clientDo (normalize url),
         .printf fmtThree [.url (normalize url), .errText err, .latency (w.later - w.start)],
         .wgDone]) ∨
    (∃ st, checkURL w url m =
        [.newRequest (normalize url), .clientDo (normalize url),
         .printf fmtThree [.url (normalize url), .status st, .latency (w.later - w.start)],
         .bodyClose, .wgDone]) ∨
    (∃ st err, checkURL w url m =
        [.newRequest (normalize url), .clientDo (normalize url), .readAll,
         .printf fmtRead
           [.url (normalize url), .status st, .latency (w.later - w.start), .errText err],
         .bodyClose, .wgDone]) ∨
    (∃ st verdict, checkURL w url m =
        [.newRequest (normalize url), .clientDo (normalize url), .readAll,
         .printf fmtThree [.url (normalize url), .status st, .latency (w.later - w.start)],
         verdict, .bodyClose, .wgDone] ∧ verdict ≠ Event.wgDone) := by
  cases hreq : w.newRequest (normalize url) with
  | some err => exact Or.inl ⟨err, checkURL_construct_err w url m err hreq⟩
  | none =>
    cases hdo : w.clientDo (normalize url) with
    | error err =>
      exact Or.inr (Or.inl ⟨err, checkURL_send_err w url m err hreq hdo⟩)
    | ok resp =>
      by_cases hst : resp.StatusCode = 200
      · cases hbody : resp.Body with
        | error err =>
          exact Or.inr (Or.inr (Or.inr (Or.inl ⟨resp.Status, err,
            checkURL_read_err w url m resp err hreq hdo hst hbody⟩)))
        | ok html =>
          refine Or.inr (Or.inr (Or.inr (Or.inr ⟨resp.Status, _,
            checkURL_ok w url m resp html hreq hdo hst hbody, ?_⟩)))
          split <;> simp
      · exact Or.inr (Or.inr (Or.inl ⟨resp.Status,
          checkURL_bad_status w url m resp hreq hdo hst⟩))

/-- Every call of `checkURL` signals completion exactly once, whatever its outcome. -/
theorem checkURL_doneCount (w : World) (url m : GoString) :
    doneCount (checkURL w url m) = 1 := by
  unfold doneCount
  rcases checkURL_cases w url m with ⟨e, h⟩ | ⟨e, h⟩ | ⟨e, h⟩ | ⟨e, e2, h⟩ | ⟨e, v, h, hv⟩
  · rw [h]; simp
  · rw [h]; simp
  · rw [h]; simp
  · rw [h]; simp
  · rw [h]
    have : (v == Event.wgDone) = false := by simpa using hv
    simp [List.count_cons, this]

/-- Every call of `checkURL` ends with its `wg.Done()`, whatever its outcome. -/
theorem checkURL_getLast (w : World) (url m : GoString) :
    (checkURL w url m).getLast? = some Event.wgDone := by
  rcases checkURL_cases w url m with ⟨e, h⟩ | ⟨e, h⟩ | ⟨e, h⟩ | ⟨e, e2, h⟩ | ⟨e, v, h, hv⟩ <;>
    rw [h] <;> simp

/-! ## runChecks: the invariant -/

theorem inv_init (urls : List GoString) (config : Config) (net : Nat → World) (t0 : Nat)
    (hp : 0 ≤ config.Parallel) : Inv urls config net (RState.init t0) := by
  constructor <;> simp [RState.init, pcIndex, pcAdded, outstanding, total, hp]

theorem inv_mainStep (urls : List GoString) (config : Config) (lim : Int) (net : Nat → World)
    (hp : 0 ≤ config.Parallel) (hcap : config.Parallel ≤ lim) (s s' : RState) (hinv : Inv urls config net s)
    (h : mainStep urls config lim s = some s') : Inv urls config net s' := by
  rcases s with ⟨pc, wg, chan, workers, now, invoked, results⟩
  obtain ⟨hnp, hle, hlt, hurls, hidx, hchan, hcl, hwg, hinvk, hres, htime, hret⟩ := hinv
  cases pc with
  | entry =>
    have hok : ¬ (config.Parallel < 0 ∨ lim < config.Parallel) := by omega
    simp only [mainStep, if_neg hok, Option.some.injEq] at h
    subst h
    simp only [pcIndex, pcAdded, outstanding] at hle hlt hurls hidx hchan hcl hwg
    refine ⟨?_, ?_, ?_, ?_, ?_, ?_, ?_, ?_, ?_, ?_, ?_, ?_⟩ <;>
      try simp only [pcIndex, pcAdded, outstanding]
    all_goals first | assumption | omega | (intro _; omega) | simp
  | loop i =>
    simp only [mainStep] at h
    split at h
    · rename_i hi
      simp only [Option.some.injEq] at h
      subst h
      simp only [pcIndex, pcAdded, outstanding] at hle hlt hurls hidx hchan hcl hwg
      refine ⟨?_, ?_, ?_, ?_, ?_, ?_, ?_, ?_, ?_, ?_, ?_, ?_⟩ <;>
        try simp only [pcIndex, pcAdded, outstanding]
      all_goals first | assumption | omega | (intro _; omega) | simp
    · simp only [Option.some.injEq] at h
      subst h
      have hi : i = urls.length := by
        simp only [pcIndex] at hle
        omega
      subst hi
      simp only [pcIndex, pcAdded, outstanding] at hle hlt hurls hidx hchan hcl hwg
      refine ⟨?_, ?_, ?_, ?_, ?_, ?_, ?_, ?_, ?_, ?_, ?_, ?_⟩ <;>
        try simp only [pcIndex, pcAdded, outstanding]
      all_goals first | assumption | omega | (intro _; omega) | simp
  | send i =>
    simp only [mainStep] at h
    split at h
    · rename_i hc
      simp only [Option.some.injEq] at h
      subst h
      simp only [pcIndex, pcAdded, outstanding] at hle hlt hurls hidx hchan hcl hwg
      refine ⟨?_, ?_, ?_, ?_, ?_, ?_, ?_, ?_, ?_, ?_, ?_, ?_⟩ <;>
        try simp only [pcIndex, pcAdded, outstanding]
      all_goals first | assumption | omega | (intro _; omega) | simp
    · simp at h
  | spawn i =>
    simp only [mainStep] at h
    split at h
    · rename_i u hu
      simp only [Option.some.injEq] at h
      subst h
      simp only [pcIndex, pcAdded, outstanding] at hle hlt hurls hidx hchan hcl hwg
      have hi : i < urls.length := hlt trivial
      refine ⟨?_, ?_, ?_, ?_, ?_, ?_, ?_, ?_, ?_, ?_, ?_, ?_⟩ <;>
        try simp only [pcIndex, pcAdded, outstanding]
      · simp
      · omega
      · simp
      · rw [List.map_append, hurls, List.take_succ, hu]
        rfl
      · rw [List.map_append, hidx, List.range_succ]
        rfl
      · rw [total_append]
        dsimp only
        rw [show Stage.spawned.holdsSlot = 1 from rfl]
        omega
      · omega
      · rw [total_append]
        dsimp only
        rw [show Stage.spawned.pending = 1 from rfl]
        omega
      · rw [List.filterMap_append]
        simpa [invokedOf] using hinvk
      · rw [List.filterMap_append]
        simpa [resultOf] using hres
      · intro w hw
        rcases List.mem_append.1 hw with hw | hw
        · exact htime w hw
        · simp only [List.mem_singleton] at hw
          subst hw
          simp [timeOk]
      · simp
    · simp at h
  | wait =>
    simp only [mainStep] at h
    split at h
    · simp only [Option.some.injEq] at h
      subst h
      simp only [pcIndex, pcAdded, outstanding] at hle hlt hurls hidx hchan hcl hwg
      refine ⟨?_, ?_, ?_, ?_, ?_, ?_, ?_, ?_, ?_, ?_, ?_, ?_⟩ <;>
        try simp only [pcIndex, pcAdded, outstanding]
      all_goals first | assumption | omega | (intro _; omega) | simp
    · simp at h
  | returned => simp [mainStep] at h
  | panicked => simp [mainStep] at h

theorem inv_workerStep (urls : List GoString) (config : Config) (net : Nat → World)
    (j : Nat) (s s' : RState) (hinv : Inv urls config net s)
    (h : workerStep config net j s = some s') : Inv urls config net s' := by
  rcases s with ⟨pc, wg, chan, workers, now, invoked, results⟩
  obtain ⟨hnp, hle, hlt, hurls, hidx, hchan, hcl, hwg, hinvk, hres, htime, hret⟩ := hinv
  simp only [workerStep] at h
  cases hw : workers[j]? with
  | none => simp [hw] at h
  | some w =>
    simp only [hw] at h
    have hmem : w ∈ workers := List.getElem?_mem hw
    have htw := htime w hmem
    rcases w with ⟨idx, url, stage, doneAt, releasedAt⟩
    simp only [outstanding] at hchan
    dsimp only at hnp hle hlt hurls hidx hcl hwg hinvk hres htime htw hret
    cases stage with
    | spawned =>
      simp only [Option.some.injEq] at h
      subst h
      have hS : total (fun w => w.stage.holdsSlot) (workers.set j ⟨idx, url, .inCheck, doneAt, releasedAt⟩) + 1 =
          total (fun w => w.stage.holdsSlot) workers + 1 :=
        total_set (fun w => w.stage.holdsSlot) workers j ⟨idx, url, .inCheck, doneAt, releasedAt⟩ _ hw
      have hP : total (fun w => w.stage.pending) (workers.set j ⟨idx, url, .inCheck, doneAt, releasedAt⟩) + 1 =
          total (fun w => w.stage.pending) workers + 1 :=
        total_set (fun w => w.stage.pending) workers j ⟨idx, url, .inCheck, doneAt, releasedAt⟩ _ hw
      refine ⟨hnp, hle, hlt, ?_, ?_, ?_, ?_, ?_, ?_, ?_, ?_, ?_⟩ <;> try simp only [outstanding]
      · rw [map_set_same (fun w => w.url) workers j ⟨idx, url, .inCheck, doneAt, releasedAt⟩ _ hw rfl]; exact hurls
      · rw [map_set_same (fun w => w.idx) workers j ⟨idx, url, .inCheck, doneAt, releasedAt⟩ _ hw rfl]; exact hidx
      · omega
      · omega
      · omega
      · exact (List.Perm.append_right _ hinvk).trans
          (filterMap_set_new (invokedOf config) workers j ⟨idx, url, .inCheck, doneAt, releasedAt⟩ _ _ hw rfl rfl).symm
      · rw [filterMap_set_same (resultOf config net) workers j ⟨idx, url, .inCheck, doneAt, releasedAt⟩ _ hw rfl]; exact hres
      · refine forall_mem_set _ workers j _ htime ?_
        simp [timeOk]
      · intro hr
        have := hret hr
        omega
    | inCheck =>
      simp only [checkURL_doneCount] at h
      split at h
      · rename_i hge
        simp only [Option.some.injEq] at h
        subst h
        have hS : total (fun w => w.stage.holdsSlot) (workers.set j ⟨idx, url, .checked, now, releasedAt⟩) + 1 =
            total (fun w => w.stage.holdsSlot) workers + 1 :=
          total_set (fun w => w.stage.holdsSlot) workers j ⟨idx, url, .checked, now, releasedAt⟩ _ hw
        have hP : total (fun w => w.stage.pending) (workers.set j ⟨idx, url, .checked, now, releasedAt⟩) + 1 =
            total (fun w => w.stage.pending) workers + 0 :=
          total_set (fun w => w.stage.pending) workers j ⟨idx, url, .checked, now, releasedAt⟩ _ hw
        refine ⟨hnp, hle, hlt, ?_, ?_, ?_, ?_, ?_, ?_, ?_, ?_, ?_⟩ <;> try simp only [outstanding]
        · rw [map_set_same (fun w => w.url) workers j ⟨idx, url, .checked, now, releasedAt⟩ _ hw rfl]; exact hurls
        · rw [map_set_same (fun w => w.idx) workers j ⟨idx, url, .checked, now, releasedAt⟩ _ hw rfl]; exact hidx
        · omega
        · omega
        · omega
        · rw [filterMap_set_same (invokedOf config) workers j ⟨idx, url, .checked, now, releasedAt⟩ _ hw rfl]; exact hinvk
        · exact (List.Perm.append_right _ hres).trans
            (filterMap_set_new (resultOf config net) workers j ⟨idx, url, .checked, now, releasedAt⟩ _ _ hw rfl rfl).symm
        · refine forall_mem_set _ workers j _ htime ?_
          simp only [timeOk] at htw ⊢
          omega
        · intro hr
          have := hret hr
          omega
      · simp at h
    | checked =>
      simp only [Option.some.injEq] at h
      subst h
      have hS : total (fun w => w.stage.holdsSlot) (workers.set j ⟨idx, url, .sleeping (now + 1 * second), doneAt, releasedAt⟩) + 1 =
          total (fun w => w.stage.holdsSlot) workers + 1 :=
        total_set (fun w => w.stage.holdsSlot) workers j ⟨idx, url, .sleeping (now + 1 * second), doneAt, releasedAt⟩ _ hw
      have hP : total (fun w => w.stage.pending) (workers.set j ⟨idx, url, .sleeping (now + 1 * second), doneAt, releasedAt⟩) + 0 =
          total (fun w => w.stage.pending) workers + 0 :=
        total_set (fun w => w.stage.pending) workers j ⟨idx, url, .sleeping (now + 1 * second), doneAt, releasedAt⟩ _ hw
      refine ⟨hnp, hle, hlt, ?_, ?_, ?_, ?_, ?_, ?_, ?_, ?_, ?_⟩ <;> try simp only [outstanding]
      · rw [map_set_same (fun w => w.url) workers j ⟨idx, url, .sleeping (now + 1 * second), doneAt, releasedAt⟩ _ hw rfl]; exact hurls
      · rw [map_set_same (fun w => w.idx) workers j ⟨idx, url, .sleeping (now + 1 * second), doneAt, releasedAt⟩ _ hw rfl]; exact hidx
      · omega
      · omega
      · omega
      · rw [filterMap_set_same (invokedOf config) workers j ⟨idx, url, .sleeping (now + 1 * second), doneAt, releasedAt⟩ _ hw rfl]; exact hinvk
      · rw [filterMap_set_same (resultOf config net) workers j ⟨idx, url, .sleeping (now + 1 * second), doneAt, releasedAt⟩ _ hw rfl]; exact hres
      · refine forall_mem_set _ workers j _ htime ?_
        simp only [timeOk] at htw ⊢
        omega
      · intro hr
        have := hret hr
        omega
    | sleeping wake =>
      dsimp only at h
      split at h
      · rename_i hwake
        simp only [Option.some.injEq] at h
        subst h
        have hS : total (fun w => w.stage.holdsSlot) (workers.set j ⟨idx, url, .slept, doneAt, releasedAt⟩) + 1 =
            total (fun w => w.stage.holdsSlot) workers + 1 :=
          total_set (fun w => w.stage.holdsSlot) workers j ⟨idx, url, .slept, doneAt, releasedAt⟩ _ hw
        have hP : total (fun w => w.stage.pending) (workers.set j ⟨idx, url, .slept, doneAt, releasedAt⟩) + 0 =
            total (fun w => w.stage.pending) workers + 0 :=
          total_set (fun w => w.stage.pending) workers j ⟨idx, url, .slept, doneAt, releasedAt⟩ _ hw
        refine ⟨hnp, hle, hlt, ?_, ?_, ?_, ?_, ?_, ?_, ?_, ?_, ?_⟩ <;> try simp only [outstanding]
        · rw [map_set_same (fun w => w.url) workers j ⟨idx, url, .slept, doneAt, releasedAt⟩ _ hw rfl]; exact hurls
        · rw [map_set_same (fun w => w.idx) workers j ⟨idx, url, .slept, doneAt, releasedAt⟩ _ hw rfl]; exact hidx
        · omega
        · omega
        · omega
        · rw [filterMap_set_same (invokedOf config) workers j ⟨idx, url, .slept, doneAt, releasedAt⟩ _ hw rfl]; exact hinvk
        · rw [filterMap_set_same (resultOf config net) workers j ⟨idx, url, .slept, doneAt, releasedAt⟩ _ hw rfl]; exact hres
        · refine forall_mem_set _ workers j _ htime ?_
          simp only [timeOk] at htw ⊢
          omega
        · intro hr
          have := hret hr
          omega
      · simp at h
    | slept =>
      dsimp only at h
      split at h
      · rename_i hpos
        simp only [Option.some.injEq] at h
        subst h
        have hS : total (fun w => w.stage.holdsSlot) (workers.set j ⟨idx, url, .released, doneAt, now⟩) + 1 =
            total (fun w => w.stage.holdsSlot) workers + 0 :=
          total_set (fun w => w.stage.holdsSlot) workers j ⟨idx, url, .released, doneAt, now⟩ _ hw
        have hP : total (fun w => w.stage.pending) (workers.set j ⟨idx, url, .released, doneAt, now⟩) + 0 =
            total (fun w => w.stage.pending) workers + 0 :=
          total_set (fun w => w.stage.pending) workers j ⟨idx, url, .released, doneAt, now⟩ _ hw
        refine ⟨hnp, hle, hlt, ?_, ?_, ?_, ?_, ?_, ?_, ?_, ?_, ?_⟩ <;> try simp only [outstanding]
        · rw [map_set_same (fun w => w.url) workers j ⟨idx, url, .released, doneAt, now⟩ _ hw rfl]; exact hurls
        · rw [map_set_same (fun w => w.idx) workers j ⟨idx, url, .released, doneAt, now⟩ _ hw rfl]; exact hidx
        · omega
        · omega
        · omega
        · rw [filterMap_set_same (invokedOf config) workers j ⟨idx, url, .released, doneAt, now⟩ _ hw rfl]; exact hinvk
        · rw [filterMap_set_same (resultOf config net) workers j ⟨idx, url, .released, doneAt, now⟩ _ hw rfl]; exact hres
        · refine forall_mem_set _ workers j _ htime ?_
          simp only [timeOk] at htw ⊢
          omega
        · intro hr
          have := hret hr
          omega
      · simp at h
    | released => simp at h

theorem inv_fire (urls : List GoString) (config : Config) (lim : Int) (net : Nat → World)
    (hp : 0 ≤ config.Parallel) (hcap : config.Parallel ≤ lim) (a : Action) (s s' : RState)
    (hinv : Inv urls config net s)
    (h : fire urls config lim net a s = some s') : Inv urls config net s' := by
  cases a with
  | main => exact inv_mainStep urls config lim net hp hcap s s' hinv h
  | worker j => exact inv_workerStep urls config net j s s' hinv h
  | tick d =>
    simp only [fire, Option.some.injEq] at h
    subst h
    obtain ⟨hnp, hle, hlt, hurls, hidx, hchan, hcl, hwg, hinvk, hres, htime, hret⟩ := hinv
    refine ⟨hnp, hle, hlt, hurls, hidx, hchan, hcl, hwg, hinvk, hres, ?_, hret⟩
    intro w hw
    have := htime w hw
    simp only [timeOk] at this ⊢
    split <;> simp_all <;> omega

theorem inv_of_reachable (urls : List GoString) (config : Config) (lim : Int) (net : Nat → World)
    (t0 : Nat) (hp : 0 ≤ config.Parallel) (hcap : config.Parallel ≤ lim) (s : RState)
    (h : Reachable urls config lim net t0 s) : Inv urls config net s := by
  induction h with
  | init => exact inv_init urls config net t0 hp
  | step a _ hfire ih => exact inv_fire urls config lim net hp hcap a _ _ ih hfire

/-! ## runChecks: progress -/

theorem run_append (urls : List GoString) (config : Config) (lim : Int) (net : Nat → World)
    (xs ys : List Action) (s : RState) :
    run urls config lim net (xs ++ ys) s = (run urls config lim net xs s).bind (run urls config lim net ys) := by
  induction xs generalizing s with
  | nil => simp [run]
  | cons a xs ih =>
    simp only [List.cons_append, run]
    cases fire urls config lim net a s with
    | none => simp
    | some s1 => simpa using ih s1

theorem reachable_run (urls : List GoString) (config : Config) (lim : Int) (net : Nat → World) (t0 : Nat)
    (acts : List Action) (s s' : RState) (hs : Reachable urls config lim net t0 s)
    (h : run urls config lim net acts s = some s') : Reachable urls config lim net t0 s' := by
  induction acts generalizing s with
  | nil =>
    simp only [run, Option.some.injEq] at h
    exact h ▸ hs
  | cons a acts ih =>
    simp only [run] at h
    cases hf : fire urls config lim net a s with
    | none => simp [hf] at h
    | some s1 =>
      rw [hf] at h
      exact ih s1 (Reachable.step a hs hf) h

theorem worker_progress (urls : List GoString) (config : Config) (lim : Int) (net : Nat → World)
    (s : RState) (hinv : Inv urls config net s) (j : Nat) (w : Worker)
    (hw : s.workers[j]? = some w) (hslot : 0 < w.stage.holdsSlot) :
    ∃ acts s', run urls config lim net acts s = some s' ∧ measure urls s' < measure urls s := by
  rcases s with ⟨pc, wg, chan, workers, now, invoked, results⟩
  obtain ⟨hnp, hle, hlt, hurls, hidx, hchan, hcl, hwg, hinvk, hres, htime, hret⟩ := hinv
  rcases w with ⟨idx, url, stage, doneAt, releasedAt⟩
  dsimp only at hw hchan hwg
  have hPge := le_total_of_getElem? (fun w => w.stage.pending) workers j _ hw
  have hSge := le_total_of_getElem? (fun w => w.stage.holdsSlot) workers j _ hw
  simp only [outstanding] at hchan
  cases stage with
  | spawned =>
    have hR : total (fun w => w.stage.remaining) (workers.set j ⟨idx, url, .inCheck, doneAt, releasedAt⟩) + 5 =
        total (fun w => w.stage.remaining) workers + 4 :=
      total_set (fun w => w.stage.remaining) workers j ⟨idx, url, .inCheck, doneAt, releasedAt⟩ _ hw
    cases hf : workerStep config net j ⟨pc, wg, chan, workers, now, invoked, results⟩ with
    | none => simp [workerStep, hw] at hf
    | some s' =>
      refine ⟨[.worker j], s', by simp [run, fire, hf], ?_⟩
      simp only [workerStep, hw, if_true, Option.some.injEq] at hf
      subst hf
      simp only [measure]
      omega
  | inCheck =>
    have hR : total (fun w => w.stage.remaining) (workers.set j ⟨idx, url, .checked, now, releasedAt⟩) + 4 =
        total (fun w => w.stage.remaining) workers + 3 :=
      total_set (fun w => w.stage.remaining) workers j ⟨idx, url, .checked, now, releasedAt⟩ _ hw
    have h1 : (1 : Nat) ≤ wg := by
      have : (1 : Nat) ≤ total (fun w => w.stage.pending) workers := hPge
      omega
    cases hf : workerStep config net j ⟨pc, wg, chan, workers, now, invoked, results⟩ with
    | none => simp [workerStep, hw, checkURL_doneCount, h1] at hf
    | some s' =>
      refine ⟨[.worker j], s', by simp [run, fire, hf], ?_⟩
      simp only [workerStep, hw, checkURL_doneCount, h1, if_true, Option.some.injEq] at hf
      subst hf
      simp only [measure]
      omega
  | checked =>
    have hR : total (fun w => w.stage.remaining) (workers.set j ⟨idx, url, .sleeping (now + 1 * second), doneAt, releasedAt⟩) + 3 =
        total (fun w => w.stage.remaining) workers + 2 :=
      total_set (fun w => w.stage.remaining) workers j ⟨idx, url, .sleeping (now + 1 * second), doneAt, releasedAt⟩ _ hw
    cases hf : workerStep config net j ⟨pc, wg, chan, workers, now, invoked, results⟩ with
    | none => simp [workerStep, hw] at hf
    | some s' =>
      refine ⟨[.worker j], s', by simp [run, fire, hf], ?_⟩
      simp only [workerStep, hw, if_true, Option.some.injEq] at hf
      subst hf
      simp only [measure]
      omega
  | sleeping wake =>
    have hR : total (fun w => w.stage.remaining) (workers.set j ⟨idx, url, .slept, doneAt, releasedAt⟩) + 2 =
        total (fun w => w.stage.remaining) workers + 1 :=
      total_set (fun w => w.stage.remaining) workers j ⟨idx, url, .slept, doneAt, releasedAt⟩ _ hw
    have h1 : wake ≤ now + (wake - now) := by omega
    cases hf : workerStep config net j ⟨pc, wg, chan, workers, now + (wake - now), invoked, results⟩ with
    | none => simp [workerStep, hw, h1] at hf
    | some s' =>
      refine ⟨[.tick (wake - now), .worker j], s', by simp [run, fire, hf], ?_⟩
      simp only [workerStep, hw, h1, if_true, Option.some.injEq] at hf
      subst hf
      simp only [measure]
      omega
  | slept =>
    have hR : total (fun w => w.stage.remaining) (workers.set j ⟨idx, url, .released, doneAt, now⟩) + 1 =
        total (fun w => w.stage.remaining) workers + 0 :=
      total_set (fun w => w.stage.remaining) workers j ⟨idx, url, .released, doneAt, now⟩ _ hw
    have h1 : 0 < chan := by
      have : (1 : Nat) ≤ total (fun w => w.stage.holdsSlot) workers := hSge
      omega
    cases hf : workerStep config net j ⟨pc, wg, chan, workers, now, invoked, results⟩ with
    | none => simp [workerStep, hw, h1] at hf
    | some s' =>
      refine ⟨[.worker j], s', by simp [run, fire, hf], ?_⟩
      simp only [workerStep, hw, h1, if_true, Option.some.injEq] at hf
      subst hf
      simp only [measure]
      omega
  | released => simp [Stage.holdsSlot] at hslot

theorem pending_le_holdsSlot (st : Stage) : st.pending ≤ st.holdsSlot := by
  cases st <;> simp [Stage.pending, Stage.holdsSlot]

theorem progress (urls : List GoString) (config : Config) (lim : Int) (net : Nat → World)
    (hp : 0 < config.Parallel) (hcap : config.Parallel ≤ lim) (s : RState)
    (hinv : Inv urls config net s) (hpc : s.pc ≠ .returned) :
    ∃ acts s', run urls config lim net acts s = some s' ∧ measure urls s' < measure urls s := by
  have hinv' := hinv
  obtain ⟨hnp, hle, hlt, hurls, hidx, hchan, hcl, hwg, hinvk, hres, htime, hret⟩ := hinv
  rcases s with ⟨pc, wg, chan, workers, now, invoked, results⟩
  dsimp only at hpc hnp hle hlt hchan hcl hwg
  cases pc with
  | entry =>
    have hneg : ¬ (config.Parallel < 0 ∨ lim < config.Parallel) := by omega
    cases hf : mainStep urls config lim ⟨.entry, wg, chan, workers, now, invoked, results⟩ with
    | none => simp [mainStep, hneg] at hf
    | some s' =>
      refine ⟨[.main], s', by simp [run, fire, hf], ?_⟩
      simp only [mainStep, hneg, if_true, if_false, Option.some.injEq] at hf
      subst hf
      simp only [measure, pcMeasure]
      omega
  | loop i =>
    by_cases hi : i < urls.length
    · cases hf : mainStep urls config lim ⟨.loop i, wg, chan, workers, now, invoked, results⟩ with
      | none => simp [mainStep, hi] at hf
      | some s' =>
        refine ⟨[.main], s', by simp [run, fire, hf], ?_⟩
        simp only [mainStep, hi, if_true, if_false, Option.some.injEq] at hf
        subst hf
        simp only [measure, pcMeasure]
        omega
    · cases hf : mainStep urls config lim ⟨.loop i, wg, chan, workers, now, invoked, results⟩ with
      | none => simp [mainStep, hi] at hf
      | some s' =>
        refine ⟨[.main], s', by simp [run, fire, hf], ?_⟩
        simp only [mainStep, hi, if_true, if_false, Option.some.injEq] at hf
        subst hf
        simp only [measure, pcMeasure]
        omega
  | send i =>
    simp only [outstanding] at hchan
    by_cases hc : (chan : Int) < config.Parallel
    · cases hf : mainStep urls config lim ⟨.send i, wg, chan, workers, now, invoked, results⟩ with
      | none => simp [mainStep, hc] at hf
      | some s' =>
        refine ⟨[.main], s', by simp [run, fire, hf], ?_⟩
        simp only [mainStep, hc, if_true, if_false, Option.some.injEq] at hf
        subst hf
        simp only [measure, pcMeasure]
        omega
    · have hpos : 0 < total (fun w => w.stage.holdsSlot) workers := by omega
      obtain ⟨j, w, hw, hslot⟩ := exists_of_total_pos _ workers hpos
      exact worker_progress urls config lim net _ hinv' j w hw hslot
  | spawn i =>
    have hi : i < urls.length := hlt rfl
    have hu : urls[i]? = some urls[i] := List.getElem?_eq_getElem hi
    cases hf : mainStep urls config lim ⟨.spawn i, wg, chan, workers, now, invoked, results⟩ with
    | none => simp [mainStep, hu] at hf
    | some s' =>
      refine ⟨[.main], s', by simp [run, fire, hf], ?_⟩
      simp only [mainStep, hu, if_true, if_false, Option.some.injEq] at hf
      subst hf
      simp only [measure, pcMeasure, total_append, Stage.remaining]
      omega
  | wait =>
    by_cases hz : wg = 0
    · cases hf : mainStep urls config lim ⟨.wait, wg, chan, workers, now, invoked, results⟩ with
      | none => simp [mainStep, hz] at hf
      | some s' =>
        refine ⟨[.main], s', by simp [run, fire, hf], ?_⟩
        simp only [mainStep, hz, if_true, if_false, Option.some.injEq] at hf
        subst hf
        simp only [measure, pcMeasure]
        omega
    · have hpos : 0 < total (fun w => w.stage.pending) workers := by
        simp only [pcAdded] at hwg
        omega
      obtain ⟨j, w, hw, hpend⟩ := exists_of_total_pos _ workers hpos
      have hslot : 0 < w.stage.holdsSlot :=
        lt_of_lt_of_le hpend (pending_le_holdsSlot w.stage)
      exact worker_progress urls config lim net _ hinv' j w hw hslot
  | returned => exact absurd rfl hpc
  | panicked => exact absurd rfl hnp

/-- From every reachable state of a round whose channel can be made with a
positive capacity, some schedule brings `runChecks` to its return. -/
theorem reaches_return (urls : List GoString) (config : Config) (lim : Int) (net : Nat → World) (t0 : Nat)
    (hp : 0 < config.Parallel) (hcap : config.Parallel ≤ lim) (s : RState)
    (hs : Reachable urls config lim net t0 s) :
    ∃ acts s', run urls config lim net acts s = some s' ∧ s'.pc = .returned := by
  generalize hn : measure urls s = n
  induction n using Nat.strong_induction_on generalizing s with
  | _ n ih =>
    by_cases hpc : s.pc = .returned
    · exact ⟨[], s, rfl, hpc⟩
    · have hinv := inv_of_reachable urls config lim net t0 (le_of_lt hp) hcap s hs
      obtain ⟨acts, s1, hrun, hlt⟩ := progress urls config lim net hp hcap s hinv hpc
      have hs1 := reachable_run urls config lim net t0 acts s s1 hs hrun
      obtain ⟨acts2, s2, hrun2, hret⟩ := ih (measure urls s1) (hn ▸ hlt) s1 hs1 rfl
      refine ⟨acts ++ acts2, s2, ?_, hret⟩
      rw [run_append, hrun]
      exact hrun2

/-- Every step of the caller of `runChecks` or of a goroutine takes at least one
off the measure, and a step of the clock leaves it as it is: a round has at most
`8 * len(urls) + 3` steps that are not steps of the clock. -/
theorem measure_fire (urls : List GoString) (config : Config) (lim : Int) (net : Nat → World)
    (a : Action) (s s' : RState) (h : fire urls config lim net a s = some s') :
    (∀ d, a ≠ .tick d) → measure urls s' < measure urls s := by
  intro hnt
  rcases s with ⟨pc, wg, chan, workers, now, invoked, results⟩
  cases a with
  | tick d => exact absurd rfl (hnt d)
  | main =>
    simp only [fire, mainStep] at h
    cases pc with
    | entry =>
      dsimp only at h
      split at h <;> simp only [Option.some.injEq] at h <;> subst h <;>
        simp only [measure, pcMeasure] <;> omega
    | loop i =>
      dsimp only at h
      split at h <;> simp only [Option.some.injEq] at h <;> subst h <;>
        simp only [measure, pcMeasure] <;> omega
    | send i =>
      dsimp only at h
      split at h
      · simp only [Option.some.injEq] at h
        subst h
        simp only [measure, pcMeasure]
        omega
      · simp at h
    | spawn i =>
      dsimp only at h
      split at h
      · rename_i u hu
        have hi : i < urls.length := by
          by_contra hge
          rw [List.getElem?_eq_none (not_lt.1 hge)] at hu
          simp at hu
        simp only [Option.some.injEq] at h
        subst h
        simp only [measure, pcMeasure, total_append, Stage.remaining]
        omega
      · simp at h
    | wait =>
      dsimp only at h
      split at h
      · simp only [Option.some.injEq] at h
        subst h
        simp only [measure, pcMeasure]
        omega
      · simp at h
    | returned => simp at h
    | panicked => simp at h
  | worker j =>
    simp only [fire, workerStep] at h
    cases hw : workers[j]? with
    | none => simp [hw] at h
    | some w =>
      simp only [hw] at h
      rcases w with ⟨idx, url, stage, doneAt, releasedAt⟩
      cases stage with
      | spawned =>
        have hR := total_set (fun w => w.stage.remaining) workers j
          ⟨idx, url, .inCheck, doneAt, releasedAt⟩ _ hw
        simp only [Option.some.injEq] at h
        subst h
        simp only [measure]
        have e1 : Stage.remaining .spawned = 5 := rfl
        have e2 : Stage.remaining .inCheck = 4 := rfl
        dsimp only at hR
        rw [e1, e2] at hR
        omega
      | inCheck =>
        have hR := total_set (fun w => w.stage.remaining) workers j
          ⟨idx, url, .checked, now, releasedAt⟩ _ hw
        dsimp only at h
        split at h
        · simp only [Option.some.injEq] at h
          subst h
          simp only [measure]
          have e1 : Stage.remaining .inCheck = 4 := rfl
          have e2 : Stage.remaining .checked = 3 := rfl
          dsimp only at hR
          rw [e1, e2] at hR
          omega
        · simp at h
      | checked =>
        have hR := total_set (fun w => w.stage.remaining) workers j
          ⟨idx, url, .sleeping (now + 1 * second), doneAt, releasedAt⟩ _ hw
        simp only [Option.some.injEq] at h
        subst h
        simp only [measure]
        have e1 : Stage.remaining .checked = 3 := rfl
        have e2 : Stage.remaining (.sleeping (now + 1 * second)) = 2 := rfl
        dsimp only at hR
        rw [e1, e2] at hR
        omega
      | sleeping wake =>
        have hR := total_set (fun w => w.stage.remaining) workers j
          ⟨idx, url, .slept, doneAt, releasedAt⟩ _ hw
        dsimp only at h
        split at h
        · simp only [Option.some.injEq] at h
          subst h
          simp only [measure]
          have e1 : Stage.remaining (.sleeping wake) = 2 := rfl
          have e2 : Stage.remaining .slept = 1 := rfl
          dsimp only at hR
          rw [e1, e2] at hR
          omega
        · simp at h
      | slept =>
        have hR := total_set (fun w => w.stage.remaining) workers j
          ⟨idx, url, .released, doneAt, now⟩ _ hw
        dsimp only at h
        split at h
        · simp only [Option.some.injEq] at h
          subst h
          simp only [measure]
          have e1 : Stage.remaining .slept = 1 := rfl
          have e2 : Stage.remaining .released = 0 := rfl
          dsimp only at hR
          rw [e1, e2] at hR
          omega
        · simp at h
      | released => simp at h

/-! ## runChecks: what holds at the return -/

theorem total_eq_zero (f : Worker → Nat) (l : List Worker) (h : total f l = 0) :
    ∀ w ∈ l, f w = 0 := by
  intro w hw
  obtain ⟨j, hj⟩ := List.getElem?_of_mem hw
  have := le_total_of_getElem? f l j w hj
  omega

theorem filterMap_eq_map_of {β : Type} (g : Worker → Option β) (f : Worker → β)
    (l : List Worker) (h : ∀ w ∈ l, g w = some (f w)) : l.filterMap g = l.map f := by
  induction l with
  | nil => rfl
  | cons c l ih =>
    have hc := h c (List.mem_cons_self c l)
    have hl := ih (fun w hw => h w (List.mem_cons_of_mem c hw))
    simp only [List.filterMap_cons, hc, hl, List.map_cons]

theorem returned_facts (urls : List GoString) (config : Config) (net : Nat → World)
    (s : RState) (hinv : Inv urls config net s) (hret : s.pc = .returned) :
    s.workers.map (fun w => (w.idx, w.url)) = (List.range urls.length).zip urls ∧
    (∀ w ∈ s.workers, w.stage.pending = 0) ∧
    s.invoked.Perm (urls.map fun u => (u, ruleFor config.Rules u)) ∧
    s.results.Perm (((List.range urls.length).zip urls).map
      fun p => checkURL (net p.1) p.2 (ruleFor config.Rules p.2)) ∧
    completed s = urls.length := by
  have hidx := hinv.idxEq
  have hurls := hinv.urlsEq
  have hwg := hinv.wgEq
  rw [hret] at hidx hurls hwg
  simp only [pcIndex, pcAdded, List.take_length] at hidx hurls hwg
  have hpend : ∀ w ∈ s.workers, w.stage.pending = 0 := by
    apply total_eq_zero
    have := hinv.retWg hret
    omega
  have hzip : s.workers.map (fun w => (w.idx, w.url)) = (List.range urls.length).zip urls := by
    rw [← hidx, ← hurls, List.zip_map']
  have hinvk : s.workers.filterMap (invokedOf config) =
      urls.map fun u => (u, ruleFor config.Rules u) := by
    rw [filterMap_eq_map_of (invokedOf config)
      (fun w => (w.url, ruleFor config.Rules w.url)) s.workers, ← hurls, List.map_map]
    · rfl
    · intro w hw
      have := hpend w hw
      unfold invokedOf
      cases hst : w.stage <;> simp_all [Stage.pending]
  have hres : s.workers.filterMap (resultOf config net) =
      ((List.range urls.length).zip urls).map
        fun p => checkURL (net p.1) p.2 (ruleFor config.Rules p.2) := by
    rw [filterMap_eq_map_of (resultOf config net)
      (fun w => checkURL (net w.idx) w.url (ruleFor config.Rules w.url)) s.workers, ← hzip,
      List.map_map]
    · rfl
    · intro w hw
      have := hpend w hw
      unfold resultOf
      cases hst : w.stage <;> simp_all [Stage.pending]
  refine ⟨hzip, hpend, hinvk ▸ hinv.invokedPerm, hres ▸ hinv.resultsPerm, ?_⟩
  have := (hres ▸ hinv.resultsPerm).length_eq
  simp only [List.length_map, List.length_zip, List.length_range, min_self] at this
  exact this

/-- When `make` panics (negative or out-of-range `Parallel`), no goroutine is ever
spawned and `runChecks` never returns. -/
theorem nothing_of_panic (urls : List GoString) (config : Config) (lim : Int)
    (net : Nat → World) (t0 : Nat)
    (hbad : config.Parallel < 0 ∨ lim < config.Parallel) (s : RState)
    (hs : Reachable urls config lim net t0 s) :
    s.workers = [] ∧ s.invoked = [] ∧ s.chan = 0 ∧ (s.pc = .entry ∨ s.pc = .panicked) := by
  induction hs with
  | init => simp [RState.init]
  | @step s1 s2 a _ hfire ih =>
    rcases s1 with ⟨pc, wg, chan, workers, now, invoked, results⟩
    obtain ⟨hw, hi, hc, hpc⟩ := ih
    simp only at hw hi hc hpc
    subst hw hi hc
    cases a with
    | main =>
      rcases hpc with h | h <;> subst h
      · simp only [fire, mainStep, if_pos hbad, Option.some.injEq] at hfire
        subst hfire
        simp
      · simp [fire, mainStep] at hfire
    | worker j => simp [fire, workerStep] at hfire
    | tick d =>
      simp only [fire, Option.some.injEq] at hfire
      subst hfire
      exact ⟨rfl, rfl, rfl, hpc⟩

/-! ## runChecks: theorems -/

/-- C6, as stated, fails: with `Parallel = 2^62`, a positive capacity the 64-bit
runtime refuses, `make` panics in the first step; no state of the round has
`runChecks` returned or `checkURL` called. -/
theorem runChecks_huge_parallel_counterexample :
    0 < hugeParallel.Parallel ∧
    run twiceTarget hugeParallel chanLimit64 (fun _ => worldOk) [.main] (RState.init 0) =
      some { RState.init 0 with pc := .panicked } ∧
    ¬ ∃ s, Reachable twiceTarget hugeParallel chanLimit64 (fun _ => worldOk) 0 s ∧
      (s.pc = .returned ∨ s.invoked ≠ []) := by
  refine ⟨by decide, by decide, ?_⟩
  rintro ⟨s, hs, h⟩
  obtain ⟨_, hi, _, hpc⟩ :=
    nothing_of_panic twiceTarget hugeParallel chanLimit64 (fun _ => worldOk) 0
      (Or.inr (by decide)) s hs
  rcases h with h | h
  · rcases hpc with h' | h' <;> rw [h'] at h <;> simp at h
  · exact h hi

/-- C6, amended: in a round with `Parallel > 0` and `Parallel` no larger than the
largest capacity `lim` for which `make(chan bool, Parallel)` succeeds, whenever
`runChecks` has returned there is one goroutine per list position, in list order
and for that position's address (duplicates included), each has called `checkURL`
and signalled completion, the calls made are the list's addresses with their
rules, the returned calls are the probes of the list positions, and their number
is the number of targets. Every reachable state of the round can be run to the
return of `runChecks`. -/
theorem runChecks_one_check_per_target (urls : List GoString) (config : Config)
    (lim : Int) (net : Nat → World) (t0 : Nat) (hp : 0 < config.Parallel)
    (hcap : config.Parallel ≤ lim) :
    (∀ s, Reachable urls config lim net t0 s → s.pc = .returned →
      s.workers.map (fun w => (w.idx, w.url)) = (List.range urls.length).zip urls ∧
      (∀ w ∈ s.workers, w.stage.pending = 0) ∧
      s.invoked.Perm (urls.map fun u => (u, ruleFor config.Rules u)) ∧
      s.results.Perm (((List.range urls.length).zip urls).map
        fun p => checkURL (net p.1) p.2 (ruleFor config.Rules p.2)) ∧
      completed s = urls.length) ∧
    (∀ s, Reachable urls config lim net t0 s →
      ∃ acts s', run urls config lim net acts s = some s' ∧ s'.pc = .returned) :=
  ⟨fun s hs hret =>
      returned_facts urls config net s
        (inv_of_reachable urls config lim net t0 (le_of_lt hp) hcap s hs) hret,
   fun s hs => reaches_return urls config lim net t0 hp hcap s hs⟩

/-- Witness of the amended C6: the round of the same target listed twice, with one
slot, run to its return. -/
theorem runChecks_one_check_per_target_witness :
    stateOneByOne.pc = .returned ∧
    stateOneByOne.workers.map (fun w => (w.idx, w.url)) =
      (List.range twiceTarget.length).zip twiceTarget ∧
    (∀ w ∈ stateOneByOne.workers, w.stage.pending = 0) ∧
    stateOneByOne.invoked.Perm (twiceTarget.map fun u => (u, ruleFor oneSlot.Rules u)) ∧
    stateOneByOne.results.Perm (((List.range twiceTarget.length).zip twiceTarget).map
      fun p => checkURL worldOk p.2 (ruleFor oneSlot.Rules p.2)) ∧
    completed stateOneByOne = twiceTarget.length :=
  ⟨by decide,
   (runChecks_one_check_per_target twiceTarget oneSlot chanLimit64 (fun _ => worldOk) 0
      (by decide) (by decide)).1
     stateOneByOne
     (reachable_run twiceTarget oneSlot chanLimit64 (fun _ => worldOk) 0 oneByOne (RState.init 0)
       stateOneByOne Reachable.init (by decide))
     (by decide)⟩

/-- C7: in every reachable state of a round with `Parallel = p > 0`, the number of
probers admitted by the throttle that have not released their slot is at most `p`. -/
theorem runChecks_outstanding_le (urls : List GoString) (config : Config)
    (lim : Int) (net : Nat → World) (t0 : Nat) (hp : 0 < config.Parallel) (s : RState)
    (hs : Reachable urls config lim net t0 s) : (outstanding s : Int) ≤ config.Parallel := by
  by_cases hcap : config.Parallel ≤ lim
  · have hinv := inv_of_reachable urls config lim net t0 (le_of_lt hp) hcap s hs
    rw [← hinv.chanEq]
    exact hinv.chanLe
  · obtain ⟨hw, _, _, hpc⟩ :=
      nothing_of_panic urls config lim net t0 (Or.inr (not_le.1 hcap)) s hs
    have h0 : outstanding s = 0 := by
      unfold outstanding
      rcases hpc with h | h <;> simp [hw, h, total]
    rw [h0]
    exact le_of_lt hp

/-- Witness of C7: five targets and two slots; after two admissions both slots are
held, and the third send has no step. -/
theorem runChecks_outstanding_le_witness :
    outstanding stateTwoAdmitted = 2 ∧
    mainStep fiveTargets twoSlots chanLimit64 stateTwoAdmitted = none ∧
    (outstanding stateTwoAdmitted : Int) ≤ twoSlots.Parallel :=
  ⟨by decide, by decide,
   runChecks_outstanding_le fiveTargets twoSlots chanLimit64 (fun _ => worldOk) 0 (by decide)
     stateTwoAdmitted
     (reachable_run fiveTargets twoSlots chanLimit64 (fun _ => worldOk) 0 admitTwo (RState.init 0)
       stateTwoAdmitted Reachable.init (by decide))⟩

/-- The only step that takes a token out of `chanParallel` is the receive of a
goroutine whose `time.Sleep` has returned. -/
theorem chan_decrease (urls : List GoString) (config : Config) (lim : Int) (net : Nat → World)
    (a : Action) (s s' : RState) (h : fire urls config lim net a s = some s')
    (hlt : s'.chan < s.chan) :
    ∃ (j : Nat) (w : Worker), a = .worker j ∧ s.workers[j]? = some w ∧ w.stage = .slept := by
  rcases s with ⟨pc, wg, chan, workers, now, invoked, results⟩
  cases a with
  | tick d =>
    simp only [fire, Option.some.injEq] at h
    subst h
    simp at hlt
  | main =>
    simp only [fire, mainStep] at h
    cases pc with
    | entry =>
      dsimp only at h
      split at h <;> simp only [Option.some.injEq] at h <;> subst h <;> simp at hlt
    | loop i =>
      dsimp only at h
      split at h <;> simp only [Option.some.injEq] at h <;> subst h <;> simp at hlt
    | send i =>
      dsimp only at h
      split at h
      · simp only [Option.some.injEq] at h
        subst h
        simp at hlt
      · simp at h
    | spawn i =>
      dsimp only at h
      split at h
      · simp only [Option.some.injEq] at h
        subst h
        simp at hlt
      · simp at h
    | wait =>
      dsimp only at h
      split at h
      · simp only [Option.some.injEq] at h
        subst h
        simp at hlt
      · simp at h
    | returned => simp at h
    | panicked => simp at h
  | worker j =>
    simp only [fire, workerStep] at h
    cases hw : workers[j]? with
    | none => simp [hw] at h
    | some w =>
      simp only [hw] at h
      rcases w with ⟨idx, url, stage, doneAt, releasedAt⟩
      cases stage with
      | spawned =>
        simp only [Option.some.injEq] at h
        subst h
        simp at hlt
      | inCheck =>
        dsimp only at h
        split at h
        · simp only [Option.some.injEq] at h
          subst h
          simp at hlt
        · simp at h
      | checked =>
        simp only [Option.some.injEq] at h
        subst h
        simp at hlt
      | sleeping wake =>
        dsimp only at h
        split at h
        · simp only [Option.some.injEq] at h
          subst h
          simp at hlt
        · simp at h
      | slept => exact ⟨j, _, rfl, hw, rfl⟩
      | released => simp at h

/-- What the clock readings of the goroutines satisfy in every reachable state. -/
theorem timing_of_reachable (urls : List GoString) (config : Config) (lim : Int) (net : Nat → World)
    (t0 : Nat) (s : RState) (hs : Reachable urls config lim net t0 s) :
    ∀ w ∈ s.workers, timeOk s.now w ∧
      (resultOf config net w ≠ none →
        checkURL (net w.idx) w.url (ruleFor config.Rules w.url) ∈ s.results) := by
  intro w hw
  by_cases hbad : config.Parallel < 0 ∨ lim < config.Parallel
  · have := (nothing_of_panic urls config lim net t0 hbad s hs).1
    rw [this] at hw
    simp at hw
  · have hinv := inv_of_reachable urls config lim net t0 (by omega) (by omega) s hs
    refine ⟨hinv.timing w hw, fun hres => ?_⟩
    rw [hinv.resultsPerm.mem_iff, List.mem_filterMap]
    refine ⟨w, hw, ?_⟩
    unfold resultOf at hres ⊢
    cases hst : w.stage <;> simp_all

/-- C8: a slot is released (a token leaves `chanParallel`) only by the receive of a
goroutine whose call of `checkURL` has returned, whatever its outcome, at a clock
reading at least one second (`1 * time.Second`) after that return; and every
goroutine that has released its slot did so at least one second after its call of
`checkURL` returned. -/
theorem runChecks_release_after_delay (urls : List GoString) (config : Config)
    (lim : Int) (net : Nat → World) (t0 : Nat) (s : RState) (hs : Reachable urls config lim net t0 s) :
    (∀ a s', fire urls config lim net a s = some s' → s'.chan < s.chan →
      ∃ (j : Nat) (w : Worker), a = .worker j ∧ s.workers[j]? = some w ∧ w.stage = .slept ∧
        checkURL (net w.idx) w.url (ruleFor config.Rules w.url) ∈ s.results ∧
        w.doneAt + 1 * second ≤ s.now) ∧
    (∀ w ∈ s.workers, w.stage = .released → w.doneAt + 1 * second ≤ w.releasedAt) := by
  constructor
  · intro a s' hfire hlt
    obtain ⟨j, w, ha, hw, hst⟩ := chan_decrease urls config lim net a s s' hfire hlt
    have ht := timing_of_reachable urls config lim net t0 s hs w (List.getElem?_mem hw)
    refine ⟨j, w, ha, hw, hst, ht.2 ?_, ?_⟩
    · simp [resultOf, hst]
    · have := ht.1
      simp only [timeOk, hst] at this
      exact this
  · intro w hw hst
    have := (timing_of_reachable urls config lim net t0 s hs w hw).1
    simp only [timeOk, hst] at this
    exact this.1

/-- Witness of C8: one slot; the first goroutine is at its receive one second after
its probe returned, its release is the next step, and after the round it has
released one second after the return of its probe. -/
theorem runChecks_release_after_delay_witness :
    (fire twiceTarget oneSlot chanLimit64 (fun _ => worldOk) (.worker 0) stateSlept).isSome = true ∧
    (∀ a s', fire twiceTarget oneSlot chanLimit64 (fun _ => worldOk) a stateSlept = some s' →
      s'.chan < stateSlept.chan →
      ∃ (j : Nat) (w : Worker), a = .worker j ∧ stateSlept.workers[j]? = some w ∧
        w.stage = .slept ∧
        checkURL worldOk w.url (ruleFor oneSlot.Rules w.url) ∈ stateSlept.results ∧
        w.doneAt + 1 * second ≤ stateSlept.now) ∧
    (∀ w ∈ stateOneByOne.workers, w.stage = .released →
      w.doneAt + 1 * second ≤ w.releasedAt) :=
  ⟨by decide,
   (runChecks_release_after_delay twiceTarget oneSlot chanLimit64 (fun _ => worldOk) 0 stateSlept
     (reachable_run twiceTarget oneSlot chanLimit64 (fun _ => worldOk) 0 untilSlept (RState.init 0)
       stateSlept Reachable.init (by decide))).1,
   (runChecks_release_after_delay twiceTarget oneSlot chanLimit64 (fun _ => worldOk) 0 stateOneByOne
     (reachable_run twiceTarget oneSlot chanLimit64 (fun _ => worldOk) 0 oneByOne (RState.init 0)
       stateOneByOne Reachable.init (by decide))).2⟩

/-- C10: every call of `checkURL` in a round is for an address `a` of the list as
listed, with the expected content `config.Rules[a]`: the value stored under `a`
when `a` is a key, the empty string when it is not, also when the normalised form
`http://` + `a` is a key. -/
theorem runChecks_rule_lookup (urls : List GoString) (config : Config)
    (lim : Int) (net : Nat → World) (t0 : Nat) :
    (∀ s, Reachable urls config lim net t0 s →
      ∀ c ∈ s.invoked, c.1 ∈ urls ∧ c.2 = ruleFor config.Rules c.1) ∧
    (∀ a m, config.Rules.lookup a = some m → ruleFor config.Rules a = m) ∧
    (∀ a, config.Rules.lookup a = none → ruleFor config.Rules a = []) ∧
    (∀ a m, config.Rules.lookup (ascii "http://" ++ a) = some m →
      config.Rules.lookup a = none → ruleFor config.Rules a = []) := by
  refine ⟨?_, ?_, ?_, ?_⟩
  · intro s hs c hc
    by_cases hbad : config.Parallel < 0 ∨ lim < config.Parallel
    · have := (nothing_of_panic urls config lim net t0 hbad s hs).2.1
      rw [this] at hc
      simp at hc
    · have hinv := inv_of_reachable urls config lim net t0 (by omega) (by omega) s hs
      rw [hinv.invokedPerm.mem_iff, List.mem_filterMap] at hc
      obtain ⟨w, hw, hwc⟩ := hc
      have hu : w.url ∈ urls := by
        have : w.url ∈ s.workers.map (fun w => w.url) := List.mem_map_of_mem _ hw
        rw [hinv.urlsEq] at this
        exact List.mem_of_mem_take this
      have hc2 : c = (w.url, ruleFor config.Rules w.url) := by
        unfold invokedOf at hwc
        cases hst : w.stage <;> rw [hst] at hwc <;>
          first
            | exact (Option.some.inj hwc).symm
            | exact absurd hwc (by simp)
      subst hc2
      exact ⟨hu, rfl⟩
  · intro a m h
    simp [ruleFor, h]
  · intro a h
    simp [ruleFor, h]
  · intro a m _ h
    simp [ruleFor, h]

/-- Witness of C10: the only rule is keyed by `http://example.com`; the probe of the
listed target `example.com` is called with the empty expected content. -/
theorem runChecks_rule_lookup_witness :
    ((ascii "example.com", ([] : GoString)) : GoString × GoString) ∈ stateInvoked.invoked ∧
    (ascii "example.com" ∈ [ascii "example.com"] ∧
      ([] : GoString) = ruleFor normalisedKey.Rules (ascii "example.com")) ∧
    ruleFor normalisedKey.Rules (ascii "example.com") = [] :=
  ⟨by decide,
   (runChecks_rule_lookup [ascii "example.com"] normalisedKey chanLimit64 (fun _ => worldOk) 0).1
     stateInvoked
     (reachable_run [ascii "example.com"] normalisedKey chanLimit64 (fun _ => worldOk) 0
       [.main, .main, .main, .main, .worker 0] (RState.init 0) stateInvoked Reachable.init
       (by decide))
     (ascii "example.com", []) (by decide),
   (runChecks_rule_lookup [ascii "example.com"] normalisedKey chanLimit64 (fun _ => worldOk) 0).2.2.2
     (ascii "example.com") (ascii "hello") (by decide) (by decide)⟩

/-! ## runPeriodicalChecks: theorems -/

end WebsiteMonitoring
